import Mathlib

/-!
Verification of the datafusion-pinot segment reader.

This file gives a shallow embedding, in Lean 4, of the decoding core of the
`pinot-segment` crate and of the batching logic of the `datafusion-pinot`
crate, and proves (or refutes) the frozen specification claims about them.

Files are modelled as byte lists (`List Nat`, each entry `< 256`); machine
integers are modelled as `Nat` with explicit `% 2 ^ 32` where u32 overflow
can occur; fallible operations return `Except Err`.
-/

set_option maxHeartbeats 1000000

namespace Spec2Proof

/-- Error kinds of `pinot-segment/src/error.rs`.  The `io` constructor stands
for `Error::Io(io::Error)`; the others carry the formatted message. -/
inductive Err where
  | io (msg : String)
  | parse (msg : String)
  | invalidFormat (msg : String)
  | unsupportedFeature (msg : String)
  | columnNotFound (msg : String)
deriving Repr, DecidableEq

instance {ε α : Type} [DecidableEq ε] [DecidableEq α] : DecidableEq (Except ε α) :=
  fun a b =>
    match a, b with
    | Except.error x, Except.error y =>
        if h : x = y then isTrue (by rw [h])
        else isFalse (fun hc => h (by cases hc; rfl))
    | Except.ok x, Except.ok y =>
        if h : x = y then isTrue (by rw [h])
        else isFalse (fun hc => h (by cases hc; rfl))
    | Except.error _, Except.ok _ => isFalse (fun hc => by cases hc)
    | Except.ok _, Except.error _ => isFalse (fun hc => by cases hc)

/-! ## Fixed-bit-width packed forward index
(`pinot-segment/src/forward_index/fixed_bit.rs`) -/

/-- `FixedBitWidthReader` (fixed_bit.rs:10-14).  `buffer` holds the bit-packed
bytes after the 8-byte magic marker; `bitsPerValue` is the `u8` field
`bits_per_value`; `numValues` is the `u32` field `num_values`. -/
structure FixedBitWidthReader where
  buffer : List Nat
  bitsPerValue : Nat
  numValues : Nat
deriving Repr, DecidableEq

/-- `FixedBitWidthReader::read` (fixed_bit.rs:18-49).  The file is modelled as
the byte list `file`; `read_exact` of `size` bytes at `offset` fails with an
I/O error when the file is too short, exactly as the real `read_exact` does. -/
def FixedBitWidthReader.read (file : List Nat) (offset size bitsPerValue numValues : Nat) :
    Except Err FixedBitWidthReader :=
  if offset + size ≤ file.length then
    let bufferWithMagic := (file.drop offset).take size
    if 8 ≤ size then
      Except.ok { buffer := bufferWithMagic.drop 8, bitsPerValue := bitsPerValue,
                  numValues := numValues }
    else
      Except.error (Err.invalidFormat ("Forward index too small to contain magic marker"))
  else
    Except.error (Err.io ("failed to fill whole buffer"))

/-- The `while num_bits_left > 8` loop and the final-byte step of
`FixedBitWidthReader::get_dict_id` (fixed_bit.rs:84-102).  `acc` is
`current_value`, `off` is the already-incremented `byte_offset`, `left` is
`num_bits_left` (strictly positive on entry).  u32 shifts truncate, hence the
`% 2 ^ 32`. -/
def bitLoopFB (buffer : List Nat) (acc off left : Nat) : Except Err Nat :=
  if 8 < left then
    if buffer.length ≤ off then
      Except.error (Err.invalidFormat ("Buffer overflow in multi-byte read"))
    else
      bitLoopFB buffer (((acc <<< 8) % 2 ^ 32) ||| buffer.getD off 0) (off + 1) (left - 8)
  else
    if buffer.length ≤ off then
      Except.error (Err.invalidFormat ("Buffer overflow in final byte read"))
    else
      Except.ok (((acc <<< left) % 2 ^ 32) ||| (buffer.getD off 0 >>> (8 - left)))
termination_by left
decreasing_by omega

/-- `FixedBitWidthReader::get_dict_id` (fixed_bit.rs:53-103).  The test
`num_bits_left <= 0` on the i32 `bits_per_value - (8 - bit_offset_in_first_byte)`
is the Nat test `bitsPerValue + lead ≤ 8`, and `-num_bits_left` is then
`8 - lead - bitsPerValue`. -/
def FixedBitWidthReader.getDictId (r : FixedBitWidthReader) (docId : Nat) : Except Err Nat :=
  if r.numValues ≤ docId then
    Except.error (Err.invalidFormat ("doc_id out of range"))
  else
    let bitOffset := docId * r.bitsPerValue
    let byteOffset := bitOffset / 8
    let lead := bitOffset % 8
    if r.buffer.length ≤ byteOffset then
      Except.error (Err.invalidFormat ("Buffer overflow"))
    else
      let byteMask := 0xFF >>> lead
      let current := r.buffer.getD byteOffset 0 &&& byteMask
      if r.bitsPerValue + lead ≤ 8 then
        Except.ok (current >>> (8 - lead - r.bitsPerValue))
      else
        bitLoopFB r.buffer current (byteOffset + 1) (r.bitsPerValue + lead - 8)

/-- `FixedBitWidthReader::read_all` (fixed_bit.rs:106-112): decode every
doc id in order, stopping at the first error. -/
def FixedBitWidthReader.readAll (r : FixedBitWidthReader) : Except Err (List Nat) :=
  (List.range r.numValues).mapM r.getDictId

/-! ## The §4.5 bit layout, as a packing function

Modelled from the spec: the repository is a read-only store and contains no
packer, so the §4.5 layout ("value i occupies bits `[i*b, (i+1)*b)` of the
packed stream, bit 0 is the most significant bit of byte 0") is rendered here
as an explicit packing function used to state the round-trip claim. -/

/-- Big-endian bit string of `v`, `b` bits wide (most significant first). -/
def natToBits : Nat → Nat → List Bool
  | 0, _ => []
  | b + 1, v => natToBits b (v / 2) ++ [v % 2 == 1]

/-- Value of a big-endian bit string (most significant first). -/
def bitsToNat (l : List Bool) : Nat :=
  l.foldl (fun a bit => 2 * a + (if bit then 1 else 0)) 0

/-- Group a bit stream into `n` bytes, most significant bit first. -/
def chunkBytes : Nat → List Bool → List Nat
  | 0, _ => []
  | n + 1, l => bitsToNat (l.take 8) :: chunkBytes n (l.drop 8)

/-- Pack `vals`, each in `b` bits, per the §4.5 big-endian bit layout; the
final partial byte is padded with zero bits. -/
def packBits (b : Nat) (vals : List Nat) : List Nat :=
  let stream := vals.flatMap (natToBits b)
  let padded := stream ++ List.replicate ((8 - stream.length % 8) % 8) false
  chunkBytes (padded.length / 8) padded

/-- Value of bits `[s, s+n)` of the bit stream `p`. -/
def sliceNat (p : List Bool) (s n : Nat) : Nat :=
  bitsToNat ((p.drop s).take n)

/-! ## Text utilities shared by the two text parsers

Rust `&str` values are modelled as `List Char`; these helpers mirror the
exact `str` methods the parsers call. -/

/-- Rust `str::split(c)`: always yields at least one (possibly empty) piece. -/
def splitOnChar (c : Char) : List Char → List (List Char)
  | [] => [[]]
  | x :: xs =>
    match splitOnChar c xs with
    | [] => [[x]]
    | h :: t => if x = c then [] :: h :: t else (x :: h) :: t

/-- Rust `str::trim` (whitespace removed from both ends). -/
def trimChars (l : List Char) : List Char :=
  ((l.dropWhile Char.isWhitespace).reverse.dropWhile Char.isWhitespace).reverse

/-- Rust `str::find(c)` combined with the `&line[..i]` / `&line[i+1..]`
slicings: the text before and after the first occurrence of `c`, or `none`
when `c` does not occur. -/
def splitAtFirst (c : Char) : List Char → Option (List Char × List Char)
  | [] => none
  | x :: xs =>
    if x = c then some ([], xs)
    else (splitAtFirst c xs).map (fun pr => (x :: pr.1, pr.2))

/-- Rust `str::parse::<usize>()`: an optional leading `+`, then one or more
decimal digits (numeric overflow is not modelled). -/
def parseUsizeChars (l : List Char) : Option Nat :=
  let digits := if l.head? = some '+' then l.drop 1 else l
  if digits = [] then none
  else if digits.all Char.isDigit then
    some (digits.foldl (fun a c => 10 * a + (c.toNat - 48)) 0)
  else none

/-- Rust `[&str]::join(sep)` for a one-character separator. -/
def joinSep (c : Char) : List (List Char) → List Char
  | [] => []
  | [p] => p
  | p :: ps => p ++ c :: joinSep c ps

/-! ## Index map (`pinot-segment/src/index_map.rs`) -/

/-- `IndexLocation` (index_map.rs:7-10). -/
structure IndexLocation where
  startOffset : Nat
  size : Nat
deriving Repr, DecidableEq

def kwStartOffset : List Char := "startOffset".toList

def kwSize : List Char := "size".toList

def kwDictionary : List Char := "dictionary".toList

def kwForwardIndex : List Char := "forward_index".toList

/-- The mutation applied to a map entry by the `match property` block
(index_map.rs:70-74): `startOffset` and `size` set the respective field,
anything else is ignored. -/
def ixApply (property : List Char) (v : Nat) (loc : IndexLocation) : IndexLocation :=
  if property = kwStartOffset then { loc with startOffset := v }
  else if property = kwSize then { loc with size := v }
  else loc

/-- `HashMap::entry(key).or_insert(default)` followed by `ixApply`, on an
association-list model of the map (index_map.rs:63-74). -/
def ixUpsert (m : List ((List Char × List Char) × IndexLocation))
    (key : List Char × List Char) (property : List Char) (v : Nat) :
    List ((List Char × List Char) × IndexLocation) :=
  match m with
  | [] => [(key, ixApply property v ⟨0, 0⟩)]
  | e :: rest =>
    if e.1 = key then (e.1, ixApply property v e.2) :: rest
    else e :: ixUpsert rest key property v

/-- `HashMap::get(key)` on the association-list model. -/
def ixLookup (m : List ((List Char × List Char) × IndexLocation))
    (key : List Char × List Char) : Option IndexLocation :=
  match m with
  | [] => none
  | e :: rest => if e.1 = key then some e.2 else ixLookup rest key

/-- `IndexMap` (index_map.rs:12-16): `(column, index_type) → IndexLocation`. -/
structure IndexMap where
  indexes : List ((List Char × List Char) × IndexLocation)
deriving Repr, DecidableEq

/-- One iteration of the parse loop of `IndexMap::parse` (index_map.rs:28-76)
acting on the accumulated map. -/
def parseIndexLine (m : List ((List Char × List Char) × IndexLocation))
    (rawLine : List Char) :
    Except Err (List ((List Char × List Char) × IndexLocation)) :=
  let line := trimChars rawLine
  if line = [] ∨ line.head? = some '#' then Except.ok m
  else
    match splitAtFirst '=' line with
    | none => Except.ok m
    | some (keyRaw, valueRaw) =>
      let keyPart := trimChars keyRaw
      let value := trimChars valueRaw
      let parts := splitOnChar '.' keyPart
      if parts.length < 3 then Except.ok m
      else
        let property := parts.getD (parts.length - 1) []
        let indexType := parts.getD (parts.length - 2) []
        let columnName := joinSep '.' (parts.take (parts.length - 2))
        match parseUsizeChars value with
        | none => Except.error (Err.parse ("Invalid number"))
        | some v => Except.ok (ixUpsert m (columnName, indexType) property v)

/-- `IndexMap::parse` (index_map.rs:25-79).  `content.lines()` is modelled by
`splitOnChar '\n'`; a trailing empty piece is skipped by the blank-line test
exactly as `lines()` would omit it. -/
def IndexMap.parse (content : List Char) : Except Err IndexMap := do
  let m ← (splitOnChar '\n' content).foldlM parseIndexLine []
  Except.ok ⟨m⟩


/-! ## Properties metadata value decoding
(`pinot-segment/src/metadata.rs`, `SegmentMetadata::decode_java_string`) -/

/-- Hex digit test of Rust `char::to_digit(16)` / `from_str_radix(_, 16)`. -/
def isHexDigitChar (c : Char) : Bool :=
  c.isDigit || ('a' ≤ c && c ≤ 'f') || ('A' ≤ c && c ≤ 'F')

/-- Numeric value of a hex digit. -/
def hexDigitVal (c : Char) : Nat :=
  if c.isDigit then c.toNat - 48
  else if 'a' ≤ c && c ≤ 'f' then c.toNat - 87
  else c.toNat - 55

/-- Rust `u32::from_str_radix(s, 16)`: an optional leading `+`, then one or
more hex digits (at most four digits reach this call, so u32 overflow cannot
occur and is not modelled). -/
def fromStrRadix16 (l : List Char) : Option Nat :=
  let digits := if l.head? = some '+' then l.drop 1 else l
  if digits = [] then none
  else if digits.all isHexDigitChar then
    some (digits.foldl (fun a c => 16 * a + hexDigitVal c) 0)
  else none

/-- The `'u'` arm of `decode_java_string` (metadata.rs:195-209): `hex` is the
up-to-four characters consumed by `take(4)`, `tail` the decoding of the rest.
`char::from_u32` succeeds exactly on `Nat.isValidChar`. -/
def uCase (hex tail : List Char) : List Char :=
  match fromStrRadix16 hex with
  | some code =>
    if Nat.isValidChar code then Char.ofNat code :: tail
    else '\\' :: 'u' :: (hex ++ tail)
  | none => '\\' :: 'u' :: (hex ++ tail)

/-- `SegmentMetadata::decode_java_string` (metadata.rs:186-239).  The
`take(4)` of the character iterator is rendered as the two `'u'` patterns:
four-or-more characters remaining, or fewer (in which case the iterator is
exhausted afterwards).  In the catch-all escape arm only the backslash is
consumed, exactly as in the source (the peeked character is not). -/
def decodeJavaString : List Char → List Char
  | [] => []
  | ['\\'] => ['\\']
  | '\\' :: 'u' :: h1 :: h2 :: h3 :: h4 :: rem =>
    uCase [h1, h2, h3, h4] (decodeJavaString rem)
  | '\\' :: 'u' :: rest2 => uCase rest2 []
  | '\\' :: 't' :: rest2 => '\t' :: decodeJavaString rest2
  | '\\' :: 'n' :: rest2 => '\n' :: decodeJavaString rest2
  | '\\' :: 'r' :: rest2 => '\r' :: decodeJavaString rest2
  | '\\' :: '\\' :: rest2 => '\\' :: decodeJavaString rest2
  | '\\' :: next :: rest2 => '\\' :: decodeJavaString (next :: rest2)
  | c :: rest => c :: decodeJavaString rest


/-! ## Dictionary decoder (`pinot-segment/src/forward_index/dictionary.rs`)

Sequential `read_exact` calls on the seeked file are modelled by explicit
positions into the byte list; `f32`/`f64` dictionary entries are kept as
their big-endian bit patterns (no float arithmetic is performed on them);
the standard-library `String::from_utf8` is abstracted as the `utf8`
parameter (`none` models an invalid-UTF-8 error). -/

/-- `DataType` (metadata.rs:7-15). -/
inductive DataType where
  | int
  | long
  | float
  | double
  | string
  | bytes
  | boolean
deriving Repr, DecidableEq

/-- `read_exact` of `n` bytes at position `pos`. -/
def readBytesAt (file : List Nat) (pos n : Nat) : Except Err (List Nat) :=
  if pos + n ≤ file.length then Except.ok ((file.drop pos).take n)
  else Except.error (Err.io ("failed to fill whole buffer"))

/-- Big-endian value of a byte string (`uXX::from_be_bytes`). -/
def beVal (l : List Nat) : Nat :=
  l.foldl (fun a b => 256 * a + b) 0

/-- `i32::from_be_bytes`: two's complement reading of 4 bytes. -/
def i32FromBeBytes (l : List Nat) : Int :=
  if beVal l < 2 ^ 31 then (beVal l : Int) else (beVal l : Int) - 2 ^ 32

/-- `i64::from_be_bytes`: two's complement reading of 8 bytes. -/
def i64FromBeBytes (l : List Nat) : Int :=
  if beVal l < 2 ^ 63 then (beVal l : Int) else (beVal l : Int) - 2 ^ 64

/-- `DictionaryValue` (dictionary.rs:10-16).  Float and Double entries are
represented by their big-endian bit patterns. -/
inductive DictionaryValue where
  | intv (values : List Int)
  | longv (values : List Int)
  | floatv (values : List Nat)
  | doublev (values : List Nat)
  | stringv (values : List (List Char))
deriving Repr, DecidableEq

/-- `DictionaryReader` (dictionary.rs:18-20). -/
structure DictionaryReader where
  values : DictionaryValue
deriving Repr, DecidableEq

/-- The per-entry `read_exact` loops of `DictionaryReader::read`
(dictionary.rs:52-85): `n` entries of `width` bytes each, in file order. -/
def readFixedVals (file : List Nat) (width pos : Nat) : Nat → Except Err (List (List Nat))
  | 0 => Except.ok []
  | n + 1 => do
    let bs ← readBytesAt file pos width
    let rest ← readFixedVals file width (pos + width) n
    Except.ok (bs :: rest)

/-- Fixed-length string entries (dictionary.rs:90-104): `len` bytes each,
trimmed at the first `0x00`, then UTF-8 decoded. -/
def readFixedStrings (utf8 : List Nat → Option (List Char)) (file : List Nat)
    (len pos : Nat) : Nat → Except Err (List (List Char))
  | 0 => Except.ok []
  | n + 1 => do
    let bs ← readBytesAt file pos len
    let cut := (bs.findIdx? (· = 0)).getD bs.length
    match utf8 (bs.take cut) with
    | none => Except.error (Err.parse ("Invalid UTF-8 in dictionary"))
    | some s => do
      let rest ← readFixedStrings utf8 file len (pos + len) n
      Except.ok (s :: rest)

/-- Variable-length string entries (dictionary.rs:106-120): a 4-byte
big-endian length prefix, then that many UTF-8 bytes. -/
def readVarStrings (utf8 : List Nat → Option (List Char)) (file : List Nat)
    (pos : Nat) : Nat → Except Err (List (List Char))
  | 0 => Except.ok []
  | n + 1 => do
    let lenB ← readBytesAt file pos 4
    let len := beVal lenB
    let sb ← readBytesAt file (pos + 4) len
    match utf8 sb with
    | none => Except.error (Err.parse ("Invalid UTF-8 in dictionary"))
    | some s => do
      let rest ← readVarStrings utf8 file (pos + 4 + len) n
      Except.ok (s :: rest)

/-- The expected magic marker `0xDEADBEEFDEAFBEAD` (dictionary.rs:7). -/
def MAGIC_MARKER : Nat := 0xDEADBEEFDEAFBEAD

/-- `DictionaryReader::read` (dictionary.rs:24-138): verify the 8-byte
big-endian magic marker, then decode `cardinality` entries according to the
data type. -/
def DictionaryReader.read (utf8 : List Nat → Option (List Char)) (file : List Nat)
    (offset _size : Nat) (dataType : DataType) (cardinality lengthOfEachEntry : Nat) :
    Except Err DictionaryReader := do
  let magicBytes ← readBytesAt file offset 8
  if beVal magicBytes ≠ MAGIC_MARKER then
    Except.error (Err.invalidFormat ("Invalid magic marker"))
  else
    match dataType with
    | DataType.int => do
      let bss ← readFixedVals file 4 (offset + 8) cardinality
      Except.ok ⟨DictionaryValue.intv (bss.map i32FromBeBytes)⟩
    | DataType.long => do
      let bss ← readFixedVals file 8 (offset + 8) cardinality
      Except.ok ⟨DictionaryValue.longv (bss.map i64FromBeBytes)⟩
    | DataType.float => do
      let bss ← readFixedVals file 4 (offset + 8) cardinality
      Except.ok ⟨DictionaryValue.floatv (bss.map beVal)⟩
    | DataType.double => do
      let bss ← readFixedVals file 8 (offset + 8) cardinality
      Except.ok ⟨DictionaryValue.doublev (bss.map beVal)⟩
    | DataType.string =>
      if 0 < lengthOfEachEntry then do
        let ss ← readFixedStrings utf8 file lengthOfEachEntry (offset + 8) cardinality
        Except.ok ⟨DictionaryValue.stringv ss⟩
      else do
        let ss ← readVarStrings utf8 file (offset + 8) cardinality
        Except.ok ⟨DictionaryValue.stringv ss⟩
    | DataType.bytes =>
      Except.error (Err.unsupportedFeature ("BYTES dictionary not yet supported"))
    | DataType.boolean =>
      Except.error (Err.unsupportedFeature ("BOOLEAN dictionary not expected"))

/-- `DictionaryReader::get_int` (dictionary.rs:140-145). -/
def DictionaryReader.getInt (r : DictionaryReader) (dictId : Nat) : Option Int :=
  match r.values with
  | DictionaryValue.intv values => values[dictId]?
  | _ => none

/-- `DictionaryReader::get_string` (dictionary.rs:168-173). -/
def DictionaryReader.getString (r : DictionaryReader) (dictId : Nat) : Option (List Char) :=
  match r.values with
  | DictionaryValue.stringv values => values[dictId]?
  | _ => none

/-! ## Segment metadata and reader facade
(`pinot-segment/src/metadata.rs`, `pinot-segment/src/segment_reader.rs`) -/

/-- `ColumnMetadata` (metadata.rs:32-42). -/
structure ColumnMetadata where
  name : List Char
  dataType : DataType
  cardinality : Nat
  totalDocs : Nat
  bitsPerElement : Nat
  hasDictionary : Bool
  isSorted : Bool
  lengthOfEachEntry : Nat
deriving Repr, DecidableEq

/-- `SegmentMetadata` (metadata.rs:44-50); the column `HashMap` is modelled
as an association list. -/
structure SegmentMetadata where
  segmentName : List Char
  tableName : List Char
  totalDocs : Nat
  columns : List (List Char × ColumnMetadata)
deriving Repr, DecidableEq

/-- `SegmentMetadata::get_column` (metadata.rs:241-246). -/
def SegmentMetadata.getColumn (md : SegmentMetadata) (name : List Char) :
    Except Err ColumnMetadata :=
  match md.columns.find? (fun e => e.1 = name) with
  | some e => Except.ok e.2
  | none => Except.error (Err.columnNotFound ("column not found"))

/-- `SegmentReader` (segment_reader.rs:7-11); `file` is the content of
`columns.psf`. -/
structure SegmentReader where
  file : List Nat
  metadata : SegmentMetadata
  indexMap : IndexMap

/-- The dictionary-id-to-value loop of `read_int_column`
(segment_reader.rs:91-99). -/
def lookupIntIds (d : DictionaryReader) : List Nat → Except Err (List Int)
  | [] => Except.ok []
  | id :: ids =>
    match d.getInt id with
    | none => Except.error (Err.invalidFormat ("Invalid dict_id"))
    | some v => do
      let rest ← lookupIntIds d ids
      Except.ok (v :: rest)

/-- `SegmentReader::read_int_column` (segment_reader.rs:42-102). -/
def SegmentReader.readIntColumn (utf8 : List Nat → Option (List Char))
    (sr : SegmentReader) (columnName : List Char) : Except Err (List Int) := do
  let colMeta ← sr.metadata.getColumn columnName
  if colMeta.dataType ≠ DataType.int then
    Except.error (Err.invalidFormat ("Column is not INT type"))
  else if colMeta.hasDictionary = false then
    Except.error (Err.unsupportedFeature ("RAW INT columns not yet supported"))
  else
    match ixLookup sr.indexMap.indexes (columnName, kwDictionary) with
    | none => Except.error (Err.invalidFormat ("No dictionary"))
    | some dictLoc => do
      let dictionary ← DictionaryReader.read utf8 sr.file dictLoc.startOffset dictLoc.size
        colMeta.dataType colMeta.cardinality colMeta.lengthOfEachEntry
      match ixLookup sr.indexMap.indexes (columnName, kwForwardIndex) with
      | none => Except.error (Err.invalidFormat ("No forward index"))
      | some fwdLoc => do
        let fixedBitReader ← FixedBitWidthReader.read sr.file fwdLoc.startOffset fwdLoc.size
          colMeta.bitsPerElement colMeta.totalDocs
        let dictIds ← fixedBitReader.readAll
        lookupIntIds dictionary dictIds


/-! ## Columnar batch adapter (`datafusion-pinot/src/exec.rs`)

The per-column typed readers of `pinot-segment` are abstracted by the
`readCol` field (every type arm of `create_batch` performs the identical
offset/limit drain, so cell values are represented uniformly); the
instrumented variants additionally count how many column reads
(`read_*_column` invocations) are performed. -/

/-- Error kinds of `datafusion-pinot/src/error.rs` reachable from
`PinotExec` (`Internal` also stands for an arrow/slice panic, which can
only make the embedding differ by failing more often — never by
succeeding with different data). -/
inductive DfErr where
  | internal (msg : String)
  | unsupportedFeature (msg : String)
  | execution (msg : String)
deriving Repr, DecidableEq

/-- `BATCH_SIZE` (exec.rs:24). -/
def BATCH_SIZE : Nat := 8192

/-- An arrow `RecordBatch`: the per-column arrays plus the row count
(`try_new_with_options` can record a row count with no columns). -/
structure RecordBatch where
  columns : List (List Int)
  rowCount : Nat
deriving Repr, DecidableEq

/-- `RecordBatch::try_new` (exec.rs:185): fails unless all arrays have the
same length; the row count is the common length. -/
def tryNewBatch (cols : List (List Int)) : Except DfErr RecordBatch :=
  match cols with
  | [] => Except.error (DfErr.internal ("RecordBatch requires at least one column"))
  | a :: rest =>
    if rest.all (fun r => r.length = a.length) then
      Except.ok ⟨a :: rest, a.length⟩
    else
      Except.error (DfErr.internal ("Failed to create RecordBatch"))

/-- The part of `PinotExec`'s segment handle that `create_batch` consumes:
`colNames` is `metadata().columns.keys()` in iteration order, `colMeta`
gives the column's declared data type, and `readCol` is the
`read_*_column` call routed by that type (exec.rs:102-180). -/
structure ExecSegment where
  totalDocs : Nat
  colNames : List (List Char)
  colMeta : List Char → Option DataType
  readCol : List Char → Except Err (List Int)

/-- The per-column loop of `create_batch` (exec.rs:100-183): look up the
column, read it in full, then drain `offset..offset+limit` (or
`offset..` when fewer than `limit` values remain).  Returns the arrays
and the number of `readCol` invocations. -/
def buildArrays (seg : ExecSegment) (offset limit : Nat) :
    List (List Char) → Except DfErr (List (List Int) × Nat)
  | [] => Except.ok ([], 0)
  | name :: rest => do
    match seg.colMeta name with
    | none => Except.error (DfErr.internal ("column not found"))
    | some dt =>
      if dt = DataType.bytes ∨ dt = DataType.boolean then
        Except.error (DfErr.unsupportedFeature ("Data type not yet supported"))
      else
        match seg.readCol name with
        | Except.error _ => Except.error (DfErr.internal ("column read failed"))
        | Except.ok values => do
          let batchValues ←
            if offset + limit ≤ values.length then
              Except.ok ((values.drop offset).take limit)
            else if offset ≤ values.length then
              Except.ok (values.drop offset)
            else
              Except.error (DfErr.internal ("panic: drain start out of range"))
          let (arrs, cnt) ← buildArrays seg offset limit rest
          Except.ok (batchValues :: arrs, cnt + 1)

/-- `PinotExec::create_batch` (exec.rs:65-187), instrumented with the
number of column reads. -/
def createBatchCounted (seg : ExecSegment) (projection : Option (List Nat))
    (offset limit : Nat) : Except DfErr (RecordBatch × Nat) := do
  let columnNames ←
    match projection with
    | some proj =>
      proj.mapM (fun idx =>
        match seg.colNames[idx]? with
        | some n => Except.ok n
        | none => Except.error (DfErr.internal ("panic: projection index out of range")))
    | none => Except.ok seg.colNames
  if columnNames = [] then
    Except.ok (⟨[], limit⟩, 0)
  else do
    let (arrs, cnt) ← buildArrays seg offset limit columnNames
    let batch ← tryNewBatch arrs
    Except.ok (batch, cnt)

/-- The offsets `(0..total_docs).step_by(BATCH_SIZE)` (exec.rs:252-253):
`k` offsets spaced `BATCH_SIZE` apart starting at `start`. -/
def stepOffsets : Nat → Nat → List Nat
  | 0, _ => []
  | k + 1, start => start :: stepOffsets k (start + BATCH_SIZE)

/-- All batch offsets of one partition scan. -/
def batchStarts (totalDocs : Nat) : List Nat :=
  stepOffsets ((totalDocs + (BATCH_SIZE - 1)) / BATCH_SIZE) 0

/-- The batch-creation loop of `PinotExec::execute` (exec.rs:252-259),
instrumented with the total number of column reads. -/
def execBatches (seg : ExecSegment) (projection : Option (List Nat)) :
    List Nat → Except DfErr (List RecordBatch × Nat)
  | [] => Except.ok ([], 0)
  | off :: rest => do
    let limit := min BATCH_SIZE (seg.totalDocs - off)
    let (b, c) ← createBatchCounted seg projection off limit
    let (bs, cs) ← execBatches seg projection rest
    Except.ok (b :: bs, c + cs)

/-- One partition of `PinotExec::execute` (exec.rs:229-266), instrumented
with the total number of column reads performed for the whole scan. -/
def executeCounted (seg : ExecSegment) (projection : Option (List Nat)) :
    Except DfErr (List RecordBatch × Nat) :=
  execBatches seg projection (batchStarts seg.totalDocs)

/-- One partition of `PinotExec::execute`: the emitted batches. -/
def executePartition (seg : ExecSegment) (projection : Option (List Nat)) :
    Except DfErr (List RecordBatch) :=
  (executeCounted seg projection).map Prod.fst


/-! ## Var-byte chunk forward index, version 4
(`pinot-segment/src/forward_index/var_byte.rs`)

The `lz4::block::decompress` library call is abstracted as the parameter
`lz4Block : List Nat → Nat → Option (List Nat)` (compressed bytes and
expected decompressed size; `none` models a decompression error), and
`String::from_utf8` / `String::from_utf8_lossy` as the parameters `utf8` /
`utf8Lossy`.  A Rust slice-index panic (unchecked `data[i]` or a reversed
range) is modelled as an `InvalidFormat` error whose message starts with
`panic:`; these paths are unreachable on well-formed data. -/

/-- Little-endian value of a byte string (`u32::from_le_bytes`). -/
def leVal (l : List Nat) : Nat :=
  l.foldr (fun b a => b + 256 * a) 0

/-- `u32::from_le_bytes` of 4 bytes read by direct indexing (a Rust index
panic when out of bounds). -/
def idx4LE (bytes : List Nat) (pos : Nat) : Except Err Nat :=
  if pos + 4 ≤ bytes.length then Except.ok (leVal ((bytes.drop pos).take 4))
  else Except.error (Err.invalidFormat ("panic: index out of bounds"))

/-- `VarByteChunkReader` (var_byte.rs:17-27); `file` is the content of
`file_path`. -/
structure VarByteChunkReader where
  file : List Nat
  baseOffset : Nat
  forwardIndexSize : Nat
  targetDecompressedChunkSize : Nat
  compressionType : Int
  metadataOffset : Nat
  metadataSize : Nat
  chunksOffset : Nat
  totalDocs : Nat

/-- `VarByteChunkReader::decompress_chunk` (var_byte.rs:266-316), with the
`lz4` cargo feature enabled. -/
def decompressChunk (lz4Block : List Nat → Nat → Option (List Nat))
    (r : VarByteChunkReader) (compressed : List Nat) : Except Err (List Nat) :=
  if r.compressionType = 0 then Except.ok compressed
  else if r.compressionType = 3 ∨ r.compressionType = 4 then
    if r.compressionType = 4 then
      if compressed.length < 4 then
        Except.error (Err.invalidFormat ("LZ4_LENGTH_PREFIXED data too short for length prefix"))
      else
        match lz4Block (compressed.drop 4) (leVal (compressed.take 4)) with
        | none => Except.error (Err.invalidFormat ("LZ4 decompression failed"))
        | some d => Except.ok d
    else
      match lz4Block compressed r.targetDecompressedChunkSize with
      | none => Except.error (Err.invalidFormat ("LZ4 decompression failed"))
      | some d => Except.ok d
  else if r.compressionType = 1 then
    Except.error (Err.unsupportedFeature ("Snappy compression not yet supported"))
  else if r.compressionType = 2 then
    Except.error (Err.unsupportedFeature ("Zstandard compression not yet supported"))
  else
    Except.error (Err.unsupportedFeature ("Unknown compression type"))

/-- The `while low <= high` loop of `find_chunk_metadata`
(var_byte.rs:102-119): i64 bounds, doc ids masked with `0x7FFFFFFF`. -/
def findChunkLoop (r : VarByteChunkReader) (docId : Nat) (low : Nat) (high : Int) :
    Except Err (Nat × Nat) :=
  if h : (low : Int) ≤ high then
    let mid := ((low : Int) + high).toNat / 2
    match readBytesAt r.file (r.metadataOffset + mid * 8) 8 with
    | Except.error e => Except.error e
    | Except.ok entry =>
      let entryDocId := leVal (entry.take 4) % 2 ^ 31
      if entryDocId < docId then findChunkLoop r docId (mid + 1) high
      else if docId < entryDocId then findChunkLoop r docId low ((mid : Int) - 1)
      else Except.ok (mid * 8, mid)
  else
    Except.ok (((low : Int) - 1).toNat * 8, ((low : Int) - 1).toNat)
termination_by (high + 1 - (low : Int)).toNat
decreasing_by
  · have hmid : low ≤ ((low : Int) + high).toNat / 2 ∧ (((low : Int) + high).toNat / 2 : Int) ≤ high := by
      constructor
      · have h1 : (low : Int) + low ≤ (low : Int) + high := by omega
        have h2 : ((low : Int) + high).toNat = low + high.toNat := by omega
        have h3 : (high.toNat : Int) = high := by omega
        omega
      · have h2 : ((low : Int) + high).toNat = low + high.toNat := by omega
        have h4 : (low + high.toNat) / 2 ≤ high.toNat := by omega
        omega
    omega
  · have hmid : low ≤ ((low : Int) + high).toNat / 2 ∧ (((low : Int) + high).toNat / 2 : Int) ≤ high := by
      constructor
      · have h1 : (low : Int) + low ≤ (low : Int) + high := by omega
        have h2 : ((low : Int) + high).toNat = low + high.toNat := by omega
        have h3 : (high.toNat : Int) = high := by omega
        omega
      · have h2 : ((low : Int) + high).toNat = low + high.toNat := by omega
        have h4 : (low + high.toNat) / 2 ≤ high.toNat := by omega
        omega
    omega

/-- `find_chunk_metadata` (var_byte.rs:95-123). -/
def findChunkMetadata (r : VarByteChunkReader) (docId : Nat) : Except Err (Nat × Nat) :=
  findChunkLoop r docId 0 ((r.metadataSize / 8 : Nat) - 1 : Int)

/-- `VarByteChunkReader::get_bytes` (var_byte.rs:126-263). -/
def VarByteChunkReader.getBytes (lz4Block : List Nat → Nat → Option (List Nat))
    (r : VarByteChunkReader) (docId : Nat) : Except Err (List Nat) := do
  let pr ← findChunkMetadata r docId
  let entry ← readBytesAt r.file (r.metadataOffset + pr.1) 8
  let chunkDocIdOffset := leVal (entry.take 4) % 2 ^ 31
  let chunkOffset := leVal ((entry.drop 4).take 4)
  let lim ←
    if (pr.2 + 1) * 8 < r.metadataSize then do
      let nextEntry ← readBytesAt r.file (r.metadataOffset + pr.1 + 8) 8
      let nextDocId := leVal (nextEntry.take 4) % 2 ^ 31
      let nextChunkOffset := leVal ((nextEntry.drop 4).take 4)
      if nextChunkOffset = 0xFFFFFFFF then
        Except.ok (r.forwardIndexSize - (r.chunksOffset - r.baseOffset), 0)
      else
        Except.ok (nextChunkOffset, nextDocId - chunkDocIdOffset)
    else
      Except.ok (r.forwardIndexSize - (r.chunksOffset - r.baseOffset), 0)
  let chunkData ← readBytesAt r.file (r.chunksOffset + chunkOffset) (lim.1 - chunkOffset)
  let decompressed ←
    if r.compressionType = 0 then Except.ok chunkData
    else decompressChunk lz4Block r chunkData
  if leVal (entry.take 4) < 2 ^ 31 then do
    let numDocsInChunk ←
      if lim.2 = 0 then
        if decompressed.length < 8 then
          Except.error (Err.invalidFormat ("Decompressed chunk too small"))
        else Except.ok (leVal (decompressed.take 4))
      else Except.ok lim.2
    let docIndexInChunk := docId - chunkDocIdOffset
    if numDocsInChunk ≤ docIndexInChunk then
      Except.error (Err.invalidFormat ("doc_id not in chunk"))
    else
      let offsetPos := 4 + docIndexInChunk * 4
      if decompressed.length < offsetPos + 4 then
        Except.error (Err.invalidFormat ("Offset position out of range"))
      else do
        let valueOffset := leVal ((decompressed.drop offsetPos).take 4)
        let nextOffset ←
          if docIndexInChunk = numDocsInChunk - 1 then
            Except.ok decompressed.length
          else
            if decompressed.length < offsetPos + 4 + 4 then
              Except.error (Err.invalidFormat ("Next offset position out of range"))
            else Except.ok (leVal ((decompressed.drop (offsetPos + 4)).take 4))
        if decompressed.length < valueOffset ∨ decompressed.length < nextOffset then
          Except.error (Err.invalidFormat ("Value offsets out of range"))
        else if nextOffset < valueOffset then
          Except.error (Err.invalidFormat ("panic: slice index starts at larger end"))
        else
          Except.ok ((decompressed.drop valueOffset).take (nextOffset - valueOffset))
  else
    Except.ok decompressed

/-- `VarByteChunkReader::get_string` (var_byte.rs:319-323). -/
def VarByteChunkReader.getString (lz4Block : List Nat → Nat → Option (List Nat))
    (utf8 : List Nat → Option (List Char)) (r : VarByteChunkReader) (docId : Nat) :
    Except Err (List Char) := do
  let bytes ← VarByteChunkReader.getBytes lz4Block r docId
  match utf8 bytes with
  | none => Except.error (Err.parse ("Invalid UTF-8 at doc_id"))
  | some s => Except.ok s

/-- The `for doc_idx in 0..num_docs_in_chunk` extraction loop of
`read_all_strings_chunked` (var_byte.rs:399-430); `k` counts the remaining
iterations, `docIdx` the current index. -/
def extractLoop (utf8Lossy : List Nat → List Char) (dec : List Nat) (numDocs : Nat) :
    Nat → Nat → Except Err (List (List Char))
  | 0, _ => Except.ok []
  | k + 1, docIdx => do
    let valueOffset ← idx4LE dec (4 + docIdx * 4)
    let nextOffset ←
      if docIdx = numDocs - 1 then
        Except.ok dec.length
      else idx4LE dec (4 + docIdx * 4 + 4)
    if dec.length < valueOffset ∨ dec.length < nextOffset then
      Except.error (Err.invalidFormat ("Value offsets out of range"))
    else if nextOffset < valueOffset then
      Except.error (Err.invalidFormat ("panic: slice index starts at larger end"))
    else do
      let rest ← extractLoop utf8Lossy dec numDocs k (docIdx + 1)
      Except.ok (utf8Lossy ((dec.drop valueOffset).take (nextOffset - valueOffset)) :: rest)

/-- One iteration of the chunk loop of `read_all_strings_chunked`
(var_byte.rs:341-431): the values of chunk `entryIdx`, together with the
number of `decompress_chunk` invocations it performed. -/
def chunkStringsAtCounted (lz4Block : List Nat → Nat → Option (List Nat))
    (utf8Lossy : List Nat → List Char) (r : VarByteChunkReader) (entryIdx : Nat) :
    Except Err (List (List Char) × Nat) := do
  let entry ← readBytesAt r.file (r.metadataOffset + entryIdx * 8) 8
  let chunkOffset := leVal ((entry.drop 4).take 4)
  let chunkLimit ←
    if (entryIdx + 1) * 8 < r.metadataSize then do
      let nextEntry ← readBytesAt r.file (r.metadataOffset + entryIdx * 8 + 8) 8
      let nextChunkOffset := leVal ((nextEntry.drop 4).take 4)
      if nextChunkOffset = 0xFFFFFFFF then
        Except.ok (r.forwardIndexSize - (r.chunksOffset - r.baseOffset))
      else
        Except.ok nextChunkOffset
    else
      Except.ok (r.forwardIndexSize - (r.chunksOffset - r.baseOffset))
  let chunkData ← readBytesAt r.file (r.chunksOffset + chunkOffset) (chunkLimit - chunkOffset)
  let dpr ←
    if r.compressionType = 0 then Except.ok (chunkData, 0)
    else do
      let d ← decompressChunk lz4Block r chunkData
      Except.ok (d, 1)
  if leVal (entry.take 4) < 2 ^ 31 then
    if dpr.1.length < 8 then
      Except.error (Err.invalidFormat ("Decompressed chunk too small"))
    else do
      let numDocsInChunk := leVal (dpr.1.take 4)
      let vals ← extractLoop utf8Lossy dpr.1 numDocsInChunk numDocsInChunk 0
      Except.ok (vals, dpr.2)
  else
    Except.ok ([utf8Lossy dpr.1], dpr.2)

/-- The `for entry_idx in 0..num_entries` loop of
`read_all_strings_chunked` (var_byte.rs:341-431), instrumented with the
total number of `decompress_chunk` invocations. -/
def chunkLoopCounted (lz4Block : List Nat → Nat → Option (List Nat))
    (utf8Lossy : List Nat → List Char) (r : VarByteChunkReader) :
    Nat → Nat → Except Err (List (List Char) × Nat)
  | 0, _ => Except.ok ([], 0)
  | k + 1, entryIdx => do
    let vpr ← chunkStringsAtCounted lz4Block utf8Lossy r entryIdx
    let rest ← chunkLoopCounted lz4Block utf8Lossy r k (entryIdx + 1)
    Except.ok (vpr.1 ++ rest.1, vpr.2 + rest.2)

/-- `read_all_strings_chunked` (var_byte.rs:333-434), instrumented. -/
def readAllStringsChunkedCounted (lz4Block : List Nat → Nat → Option (List Nat))
    (utf8Lossy : List Nat → List Char) (r : VarByteChunkReader) :
    Except Err (List (List Char) × Nat) :=
  chunkLoopCounted lz4Block utf8Lossy r (r.metadataSize / 8) 0

/-- `VarByteChunkReader::read_all_strings` (var_byte.rs:326-329), which
delegates to `read_all_strings_chunked`. -/
def VarByteChunkReader.readAllStrings (lz4Block : List Nat → Nat → Option (List Nat))
    (utf8Lossy : List Nat → List Char) (r : VarByteChunkReader) :
    Except Err (List (List Char)) :=
  (readAllStringsChunkedCounted lz4Block utf8Lossy r).map Prod.fst

/-! ### Well-formedness of a V4 var-byte index

Pure accessors used to state well-formedness; `n` always denotes
`metadataSize / 8`, the number of metadata entries. -/

/-- The 8 metadata bytes of entry `k`. -/
def entryBytesOf (r : VarByteChunkReader) (k : Nat) : List Nat :=
  (r.file.drop (r.metadataOffset + k * 8)).take 8

/-- First doc id of chunk `k` (flag bit masked off). -/
def entryDocIdOf (r : VarByteChunkReader) (k : Nat) : Nat :=
  leVal ((entryBytesOf r k).take 4) % 2 ^ 31

/-- Whether chunk `k` is flagged as a huge-value chunk (top bit set). -/
def entryHugeOf (r : VarByteChunkReader) (k : Nat) : Prop :=
  2 ^ 31 ≤ leVal ((entryBytesOf r k).take 4)

instance (r : VarByteChunkReader) (k : Nat) : Decidable (entryHugeOf r k) :=
  inferInstanceAs (Decidable (_ ≤ _))

/-- Chunk `k`'s byte offset within the chunks section. -/
def entryChunkOffOf (r : VarByteChunkReader) (k : Nat) : Nat :=
  leVal (((entryBytesOf r k).drop 4).take 4)

/-- The end of chunk `k`: the next entry's offset, or the end of the
forward-index region for the last chunk. -/
def chunkLimitOf (r : VarByteChunkReader) (k : Nat) : Nat :=
  if (k + 1) * 8 < r.metadataSize then entryChunkOffOf r (k + 1)
  else r.forwardIndexSize - (r.chunksOffset - r.baseOffset)

/-- The raw (possibly compressed) bytes of chunk `k`. -/
def chunkRawOf (r : VarByteChunkReader) (k : Nat) : List Nat :=
  (r.file.drop (r.chunksOffset + entryChunkOffOf r k)).take
    (chunkLimitOf r k - entryChunkOffOf r k)

/-- Number of documents in chunk `k`, given its decompressed bytes: 1 for a
huge chunk, the embedded little-endian count otherwise. -/
def docCountOf (r : VarByteChunkReader) (dec : Nat → List Nat) (k : Nat) : Nat :=
  if entryHugeOf r k then 1 else leVal ((dec k).take 4)

/-- First doc id of chunk `k` as implied by the chunk doc counts. -/
def docStartOf (r : VarByteChunkReader) (dec : Nat → List Nat) : Nat → Nat
  | 0 => 0
  | k + 1 => docStartOf r dec k + docCountOf r dec k

/-- In-chunk value offset `i` of regular chunk `k`. -/
def valOffOf (dec : Nat → List Nat) (k i : Nat) : Nat :=
  leVal (((dec k).drop (4 + i * 4)).take 4)

/-- End position of value `i` in regular chunk `k`. -/
def valEndOf (r : VarByteChunkReader) (dec : Nat → List Nat) (k i : Nat) : Nat :=
  if i = docCountOf r dec k - 1 then (dec k).length else valOffOf dec k (i + 1)

/-- The byte string of value `i` in regular chunk `k`. -/
def valBytesOf (r : VarByteChunkReader) (dec : Nat → List Nat) (k i : Nat) : List Nat :=
  ((dec k).drop (valOffOf dec k i)).take (valEndOf r dec k i - valOffOf dec k i)

/-- Well-formedness of a V4 var-byte forward index, relative to the
decompressed chunk contents `dec`: `n` metadata entries, all readable, no
`0xFFFFFFFF` sentinel offsets, every chunk's bytes inside the file and its
decompression succeeding with `dec k`, consecutive first-doc-ids equal to
the cumulative doc counts with `totalDocs` their total, at least one doc
per chunk, and each regular chunk carrying an in-bounds, monotone offset
array. -/
def WellFormedV4 (lz4Block : List Nat → Nat → Option (List Nat))
    (r : VarByteChunkReader) (dec : Nat → List Nat) (n : Nat) : Prop :=
  r.metadataSize = n * 8
  ∧ r.metadataOffset + n * 8 ≤ r.file.length
  ∧ (∀ k, k < n → entryChunkOffOf r k ≠ 0xFFFFFFFF)
  ∧ (∀ k, k < n →
      r.chunksOffset + entryChunkOffOf r k + (chunkLimitOf r k - entryChunkOffOf r k)
        ≤ r.file.length)
  ∧ (∀ k, k < n →
      (if r.compressionType = 0 then Except.ok (chunkRawOf r k)
       else decompressChunk lz4Block r (chunkRawOf r k)) = Except.ok (dec k))
  ∧ (∀ k, k < n → entryDocIdOf r k = docStartOf r dec k)
  ∧ r.totalDocs = docStartOf r dec n
  ∧ (∀ k, k < n → 1 ≤ docCountOf r dec k)
  ∧ (∀ k, k < n → ¬ entryHugeOf r k →
      8 ≤ (dec k).length
      ∧ 4 + docCountOf r dec k * 4 ≤ (dec k).length
      ∧ (∀ i, i < docCountOf r dec k → valOffOf dec k i ≤ (dec k).length)
      ∧ (∀ i, i < docCountOf r dec k → valOffOf dec k i ≤ valEndOf r dec k i))

/-- The byte string of document `i` of chunk `k`: the whole decompressed
chunk for a huge chunk, the `i`-th value otherwise. -/
def docValueOf (r : VarByteChunkReader) (dec : Nat → List Nat) (k i : Nat) : List Nat :=
  if entryHugeOf r k then dec k else valBytesOf r dec k i

/-- The decoded values of chunk `k` (UTF-8 decodings of its byte values). -/
def chunkValsOf (r : VarByteChunkReader) (dec : Nat → List Nat)
    (utf8Lossy : List Nat → List Char) (k : Nat) : List (List Char) :=
  (List.range (docCountOf r dec k)).map (fun i => utf8Lossy (docValueOf r dec k i))

/-- Concatenation of the decoded values of chunks `j, j+1, …, j+m-1`. -/
def flatValsFrom (r : VarByteChunkReader) (dec : Nat → List Nat)
    (utf8Lossy : List Nat → List Char) : Nat → Nat → List (List Char)
  | _, 0 => []
  | j, m + 1 => chunkValsOf r dec utf8Lossy j ++ flatValsFrom r dec utf8Lossy (j + 1) m

/-- ASCII decoding (`String::from_utf8` restricted to ASCII input): succeeds
exactly when every byte is below `0x80`. -/
def asciiDecode (bs : List Nat) : Option (List Char) :=
  if bs.all (fun b => b < 128) then some (bs.map Char.ofNat) else none

/-- Lossy ASCII decoding (`String::from_utf8_lossy` restricted to ASCII
input): non-ASCII bytes become U+FFFD. -/
def asciiLossy (bs : List Nat) : List Char :=
  bs.map (fun b => if b < 128 then Char.ofNat b else Char.ofNat 0xFFFD)


/-- The §4.6 example index, PASS_THROUGH compressed: one metadata entry
(first doc id 0, chunk offset 0) and a single chunk holding the three
values `hi`, `abc`, `xyz` (num_docs 3, offsets 16, 18, 21). -/
def sampleV4Reader : VarByteChunkReader :=
  ⟨[0, 0, 0, 0, 0, 0, 0, 0,
    3, 0, 0, 0, 16, 0, 0, 0, 18, 0, 0, 0, 21, 0, 0, 0,
    104, 105, 97, 98, 99, 120, 121, 122],
   0, 32, 0, 0, 0, 8, 8, 3⟩

/-- The decompressed content of `sampleV4Reader`'s single chunk. -/
def sampleV4Chunk : List Nat :=
  [3, 0, 0, 0, 16, 0, 0, 0, 18, 0, 0, 0, 21, 0, 0, 0,
   104, 105, 97, 98, 99, 120, 121, 122]

/-! ### Arithmetic of big-endian bit strings -/

theorem bitsToNat_from (l : List Bool) :
    ∀ a, l.foldl (fun a bit => 2 * a + (if bit then 1 else 0)) a
      = a * 2 ^ l.length + bitsToNat l := by
  induction l with
  | nil => intro a; simp [bitsToNat]
  | cons x l ih =>
    intro a
    have hx : bitsToNat (x :: l)
        = (if x then 1 else 0) * 2 ^ l.length + bitsToNat l := by
      show List.foldl _ _ (x :: l) = _
      rw [List.foldl_cons, ih]
      simp [bitsToNat]
    rw [List.foldl_cons, ih, hx]
    ring_nf
    cases x <;> simp <;> ring

theorem bitsToNat_append (l₁ l₂ : List Bool) :
    bitsToNat (l₁ ++ l₂) = bitsToNat l₁ * 2 ^ l₂.length + bitsToNat l₂ := by
  show List.foldl _ _ (l₁ ++ l₂) = _
  rw [List.foldl_append, bitsToNat_from]
  rfl

theorem bitsToNat_lt (l : List Bool) : bitsToNat l < 2 ^ l.length := by
  induction l with
  | nil => simp [bitsToNat]
  | cons x l ih =>
    have hx : bitsToNat (x :: l)
        = (if x then 1 else 0) * 2 ^ l.length + bitsToNat l := by
      show List.foldl _ _ (x :: l) = _
      rw [List.foldl_cons, bitsToNat_from]
      simp [bitsToNat]
    rw [hx]
    have : (2 : Nat) ^ (x :: l).length = 2 ^ l.length + 2 ^ l.length := by
      simp [List.length_cons, Nat.pow_succ]; ring
    rw [this]
    cases x <;> simp <;> omega

theorem natToBits_length (b v : Nat) : (natToBits b v).length = b := by
  induction b generalizing v with
  | zero => rfl
  | succ b ih => simp [natToBits, ih]

theorem bitsToNat_natToBits (b v : Nat) : bitsToNat (natToBits b v) = v % 2 ^ b := by
  induction b generalizing v with
  | zero => simp [natToBits, bitsToNat, Nat.mod_one]
  | succ b ih =>
    rw [natToBits, bitsToNat_append, ih]
    have h2 : v % 2 ^ (b + 1) = v % 2 + 2 * (v / 2 % 2 ^ b) := by
      rw [pow_succ']
      exact Nat.mod_mul
    have hr : v % 2 = 0 ∨ v % 2 = 1 := Nat.mod_two_eq_zero_or_one v
    rcases hr with hr | hr <;>
      simp [hr, natToBits_length, bitsToNat, h2] <;> omega

theorem sliceNat_lt (p : List Bool) (s n : Nat) : sliceNat p s n < 2 ^ n := by
  have h := bitsToNat_lt ((p.drop s).take n)
  have hlen : ((p.drop s).take n).length ≤ n := by
    simp [List.length_take]
  calc sliceNat p s n < 2 ^ ((p.drop s).take n).length := h
    _ ≤ 2 ^ n := Nat.pow_le_pow_right (by omega) hlen

theorem sliceNat_split (p : List Bool) (s n₁ n₂ : Nat) (h : s + n₁ + n₂ ≤ p.length) :
    sliceNat p s (n₁ + n₂) = sliceNat p s n₁ * 2 ^ n₂ + sliceNat p (s + n₁) n₂ := by
  unfold sliceNat
  rw [List.take_add, bitsToNat_append]
  have hdd : (p.drop s).drop n₁ = p.drop (s + n₁) := by
    rw [List.drop_drop]
  rw [hdd]
  have hlen : ((p.drop (s + n₁)).take n₂).length = n₂ := by
    simp [List.length_take, List.length_drop]
    omega
  rw [hlen]

theorem sliceNat_mod (p : List Bool) (s n₁ n₂ : Nat) (h : s + n₁ + n₂ ≤ p.length) :
    sliceNat p s (n₁ + n₂) % 2 ^ n₂ = sliceNat p (s + n₁) n₂ := by
  rw [sliceNat_split p s n₁ n₂ h, Nat.add_comm, Nat.add_mul_mod_self_right]
  exact Nat.mod_eq_of_lt (sliceNat_lt p (s + n₁) n₂)

theorem sliceNat_div (p : List Bool) (s n₁ n₂ : Nat) (h : s + n₁ + n₂ ≤ p.length) :
    sliceNat p s (n₁ + n₂) / 2 ^ n₂ = sliceNat p s n₁ := by
  rw [sliceNat_split p s n₁ n₂ h, Nat.add_comm,
    Nat.add_mul_div_right _ _ (Nat.pow_pos (a := 2) (n := n₂) (by omega))]
  rw [Nat.div_eq_of_lt (sliceNat_lt p (s + n₁) n₂)]
  omega

theorem chunkBytes_length (n : Nat) (p : List Bool) : (chunkBytes n p).length = n := by
  induction n generalizing p with
  | zero => rfl
  | succ n ih => simp [chunkBytes, ih]

theorem chunkBytes_getD (n : Nat) (p : List Bool) (k : Nat) (hk : k < n) :
    (chunkBytes n p).getD k 0 = sliceNat p (8 * k) 8 := by
  induction n generalizing p k with
  | zero => omega
  | succ n ih =>
    cases k with
    | zero => simp [chunkBytes, sliceNat]
    | succ k =>
      rw [chunkBytes, List.getD_cons_succ, ih (p.drop 8) k (by omega)]
      unfold sliceNat
      rw [List.drop_drop]
      have h88 : 8 + 8 * k = 8 * (k + 1) := by omega
      rw [h88]

theorem byteMask_eq (lead : Nat) (h : lead < 8) : (0xFF >>> lead) = 2 ^ (8 - lead) - 1 := by
  interval_cases lead <;> decide

/-- Correctness of the multi-byte loop of `get_dict_id`: starting with the
`m` stream bits `[s, 8*off)` accumulated, consuming `left` more bits yields
the value of stream bits `[s, s + m + left)`. -/
theorem bitLoopFB_correct (p : List Bool) (n : Nat) (hp : p.length = 8 * n) :
    ∀ left, 1 ≤ left → ∀ acc off m s, acc = sliceNat p s m → s + m = 8 * off →
      m + left ≤ 31 → 8 * off + left ≤ 8 * n →
      bitLoopFB (chunkBytes n p) acc off left = Except.ok (sliceNat p s (m + left)) := by
  intro left
  induction left using Nat.strong_induction_on with
  | _ left ih =>
    intro hleft acc off m s hacc hsm hm31 hfit
    have hacclt : acc < 2 ^ m := hacc ▸ sliceNat_lt p s m
    by_cases h8 : 8 < left
    · -- loop iteration: consume one whole byte
      have hoff : off < n := by omega
      rw [bitLoopFB, if_pos h8, if_neg (by rw [chunkBytes_length]; omega)]
      have hbyte : (chunkBytes n p).getD off 0 = sliceNat p (8 * off) 8 :=
        chunkBytes_getD n p off hoff
      have hbytelt : sliceNat p (8 * off) 8 < 2 ^ 8 := sliceNat_lt p (8 * off) 8
      have hshift : acc <<< 8 = acc * 2 ^ 8 := Nat.shiftLeft_eq acc 8
      have hnof : acc * 2 ^ 8 < 2 ^ 32 := by
        calc acc * 2 ^ 8 < 2 ^ m * 2 ^ 8 :=
              mul_lt_mul_of_pos_right hacclt (Nat.pow_pos (by omega))
          _ = 2 ^ (m + 8) := (Nat.pow_add 2 m 8).symm
          _ ≤ 2 ^ 32 := Nat.pow_le_pow_right (by omega) (by omega)
      have hor : (acc <<< 8) % 2 ^ 32 ||| (chunkBytes n p).getD off 0
          = sliceNat p s (m + 8) := by
        rw [hshift, Nat.mod_eq_of_lt hnof, hbyte]
        have h1 : acc * 2 ^ 8 = 2 ^ 8 * acc := Nat.mul_comm _ _
        rw [h1, ← Nat.mul_add_lt_is_or hbytelt,
          sliceNat_split p s m 8 (by omega), hacc, ← hsm]
        ring
      rw [hor]
      have := ih (left - 8) (by omega) (by omega) (sliceNat p s (m + 8)) (off + 1) (m + 8) s
        rfl (by omega) (by omega) (by omega)
      rw [this]
      congr 1
      congr 1
      omega
    · -- final byte
      have hoff : off < n := by omega
      rw [bitLoopFB, if_neg h8, if_neg (by rw [chunkBytes_length]; omega)]
      have hbyte : (chunkBytes n p).getD off 0 = sliceNat p (8 * off) 8 :=
        chunkBytes_getD n p off hoff
      have hshift : acc <<< left = acc * 2 ^ left := Nat.shiftLeft_eq acc left
      have hnof : acc * 2 ^ left < 2 ^ 32 := by
        calc acc * 2 ^ left < 2 ^ m * 2 ^ left :=
              mul_lt_mul_of_pos_right hacclt (Nat.pow_pos (by omega))
          _ = 2 ^ (m + left) := (Nat.pow_add 2 m left).symm
          _ ≤ 2 ^ 32 := Nat.pow_le_pow_right (by omega) (by omega)
      have htop : (chunkBytes n p).getD off 0 >>> (8 - left) = sliceNat p (8 * off) left := by
        rw [hbyte, Nat.shiftRight_eq_div_pow]
        have : sliceNat p (8 * off) 8 / 2 ^ (8 - left) = sliceNat p (8 * off) left := by
          have h8eq : left + (8 - left) = 8 := by omega
          have := sliceNat_div p (8 * off) left (8 - left) (by omega)
          rw [h8eq] at this
          exact this
        exact this
      have htoplt : sliceNat p (8 * off) left < 2 ^ left := sliceNat_lt p (8 * off) left
      rw [hshift, Nat.mod_eq_of_lt hnof, htop]
      have h1 : acc * 2 ^ left = 2 ^ left * acc := Nat.mul_comm _ _
      rw [h1, ← Nat.mul_add_lt_is_or htoplt,
        sliceNat_split p s m left (by omega), hacc, ← hsm]
      ring_nf

/-- `get_dict_id` computes the value of stream bits `[docId*b, docId*b + b)`
of the packed bit stream, for any buffer that is the byte grouping of a bit
stream `p` of length `8*n`. -/
theorem getDictId_sliceNat (p : List Bool) (n : Nat) (hp : p.length = 8 * n)
    (b numv docId : Nat) (hb1 : 1 ≤ b) (hb2 : b ≤ 31) (hd : docId < numv)
    (hfit : docId * b + b ≤ 8 * n) :
    FixedBitWidthReader.getDictId ⟨chunkBytes n p, b, numv⟩ docId
      = Except.ok (sliceNat p (docId * b) b) := by
  unfold FixedBitWidthReader.getDictId
  simp only []
  rw [if_neg (by omega)]
  set s := docId * b with hs
  have hslt : s + b ≤ 8 * n := hfit
  have hq : s / 8 < n := by
    rw [Nat.div_lt_iff_lt_mul (by omega)]
    omega
  rw [if_neg (by rw [chunkBytes_length]; omega)]
  have hlead : s % 8 < 8 := Nat.mod_lt _ (by omega)
  have hbyte : (chunkBytes n p).getD (s / 8) 0 = sliceNat p (8 * (s / 8)) 8 :=
    chunkBytes_getD n p (s / 8) hq
  have hdm : 8 * (s / 8) + s % 8 = s := Nat.div_add_mod s 8
  have hcur : (chunkBytes n p).getD (s / 8) 0 &&& (0xFF >>> (s % 8))
      = sliceNat p s (8 - s % 8) := by
    rw [hbyte, byteMask_eq (s % 8) hlead, Nat.and_pow_two_sub_one_eq_mod]
    have hsplit := sliceNat_mod p (8 * (s / 8)) (s % 8) (8 - s % 8) (by omega)
    have h8 : s % 8 + (8 - s % 8) = 8 := by omega
    rw [h8] at hsplit
    rw [hsplit, hdm]
  by_cases hfits : b + s % 8 ≤ 8
  · rw [if_pos hfits, hcur]
    have hdiv := sliceNat_div p s b (8 - s % 8 - b) (by omega)
    have hbb : b + (8 - s % 8 - b) = 8 - s % 8 := by omega
    rw [hbb] at hdiv
    rw [Nat.shiftRight_eq_div_pow]
    have harg : 8 - s % 8 - b = 8 - s % 8 - b := rfl
    rw [show (8 : Nat) - s % 8 - b = 8 - s % 8 - b from rfl]
    rw [hdiv]
  · rw [if_neg hfits, hcur]
    have hloop := bitLoopFB_correct p n hp (b + s % 8 - 8) (by omega)
      (sliceNat p s (8 - s % 8)) (s / 8 + 1) (8 - s % 8) s rfl (by omega) (by omega) (by omega)
    rw [hloop]
    have hbeq : 8 - s % 8 + (b + s % 8 - 8) = b := by omega
    rw [hbeq]

/-! ### The packed stream of `packBits` -/

theorem flatMap_natToBits_length (b : Nat) (vals : List Nat) :
    (vals.flatMap (natToBits b)).length = vals.length * b := by
  induction vals with
  | nil => simp
  | cons v vs ih =>
    rw [List.flatMap_cons, List.length_append, ih, natToBits_length, List.length_cons]
    ring

theorem slice_flatMap (b : Nat) (vals : List Nat) (i : Nat) (hi : i < vals.length) :
    ((vals.flatMap (natToBits b)).drop (i * b)).take b = natToBits b (vals.getD i 0) := by
  induction vals generalizing i with
  | nil => simp at hi
  | cons v vs ih =>
    rw [List.flatMap_cons]
    cases i with
    | zero =>
      rw [Nat.zero_mul, List.drop_zero,
        List.take_append_of_le_length (by rw [natToBits_length])]
      have := List.take_length (natToBits b v)
      rw [natToBits_length] at this
      rw [this]
      rfl
    | succ i =>
      have hib : (i + 1) * b = (natToBits b v).length + i * b := by
        rw [natToBits_length]; ring
      rw [hib, List.drop_append, ih i (by simpa using hi)]
      rfl

/-- Round-trip core, per index: decoding index `i` of `packBits b vals`
recovers `vals[i]`. -/
theorem getDictId_packBits (b : Nat) (vals : List Nat) (hb1 : 1 ≤ b) (hb2 : b ≤ 31)
    (hv : ∀ v ∈ vals, v < 2 ^ b) (numv i : Nat) (hi : i < vals.length) (hn : i < numv) :
    FixedBitWidthReader.getDictId ⟨packBits b vals, b, numv⟩ i
      = Except.ok (vals.getD i 0) := by
  unfold packBits
  simp only []
  set stream := vals.flatMap (natToBits b) with hstream
  set padded := stream ++ List.replicate ((8 - stream.length % 8) % 8) false with hpadded
  have hslen : stream.length = vals.length * b := flatMap_natToBits_length b vals
  have hpdvd : padded.length % 8 = 0 := by
    rw [hpadded, List.length_append, List.length_replicate]
    omega
  have hplen : padded.length = 8 * (padded.length / 8) := by omega
  have hfit : i * b + b ≤ 8 * (padded.length / 8) := by
    rw [← hplen, hpadded, List.length_append, hslen]
    have h1 : (i + 1) * b ≤ vals.length * b := Nat.mul_le_mul_right b (by omega)
    have h2 : (i + 1) * b = i * b + b := by ring
    omega
  rw [getDictId_sliceNat padded (padded.length / 8) hplen b numv i hb1 hb2 hn hfit]
  have hslice : sliceNat padded (i * b) b = vals.getD i 0 := by
    unfold sliceNat
    have hin : i * b + b ≤ stream.length := by
      rw [hslen]
      have h1 : (i + 1) * b ≤ vals.length * b := Nat.mul_le_mul_right b (by omega)
      have h2 : (i + 1) * b = i * b + b := by ring
      omega
    have hdrop : padded.drop (i * b) = stream.drop (i * b)
        ++ List.replicate ((8 - stream.length % 8) % 8) false := by
      rw [hpadded, List.drop_append_of_le_length (by omega)]
    have htake : (padded.drop (i * b)).take b = (stream.drop (i * b)).take b := by
      rw [hdrop, List.take_append_of_le_length (by rw [List.length_drop]; omega)]
    have hmem : vals.getD i 0 ∈ vals := by
      rw [List.getD_eq_getElem _ _ hi]
      exact List.getElem_mem hi
    rw [htake, hstream, slice_flatMap b vals i hi, bitsToNat_natToBits,
      Nat.mod_eq_of_lt (hv _ hmem)]
  rw [hslice]

theorem mapM_ok_of_pointwise {α : Type} (l : List Nat) (f : Nat → Except α Nat)
    (g : Nat → Nat) (h : ∀ x ∈ l, f x = Except.ok (g x)) :
    l.mapM f = Except.ok (l.map g) := by
  induction l with
  | nil => rfl
  | cons x xs ih =>
    rw [List.mapM_cons, h x (by simp), ih (fun y hy => h y (by simp [hy]))]
    rfl

theorem map_range_getD (vals : List Nat) :
    (List.range vals.length).map (fun i => vals.getD i 0) = vals := by
  apply List.ext_getElem
  · simp
  · intro i h₁ h₂
    rw [List.getElem_map, List.getElem_range, List.getD_eq_getElem _ _ h₂]

/-- C1: for every bits-per-value `b ∈ [1,31]` and every sequence of values
each `< 2^b`, packing with the §4.5 big-endian bit layout and decoding with
`FixedBitWidthReader::get_dict_id` (via `read_all`) returns the original
sequence; moreover buffer `[0x5A, 0xF3]` with `b = 4` decodes to
`[5, 10, 15, 3]` and buffer `[0x55, 0x0A]` with `b = 5` decodes to
`[10, 20, 5]`. -/
theorem C1_bitpack_roundtrip :
    (∀ b vals, 1 ≤ b → b ≤ 31 → (∀ v ∈ vals, v < 2 ^ b) →
      FixedBitWidthReader.readAll ⟨packBits b vals, b, vals.length⟩ = Except.ok vals)
    ∧ (List.range 4).map (FixedBitWidthReader.getDictId ⟨[0x5A, 0xF3], 4, 4⟩)
        = [Except.ok 5, Except.ok 10, Except.ok 15, Except.ok 3]
    ∧ (List.range 3).map (FixedBitWidthReader.getDictId ⟨[0x55, 0x0A], 5, 3⟩)
        = [Except.ok 10, Except.ok 20, Except.ok 5] := by
  refine ⟨?_, ?_, ?_⟩
  · intro b vals hb1 hb2 hv
    unfold FixedBitWidthReader.readAll
    simp only []
    rw [mapM_ok_of_pointwise (List.range vals.length)
      (FixedBitWidthReader.getDictId ⟨packBits b vals, b, vals.length⟩)
      (fun i => vals.getD i 0) ?_]
    · rw [map_range_getD]
    · intro i hi
      have hilt : i < vals.length := List.mem_range.mp hi
      exact getDictId_packBits b vals hb1 hb2 hv vals.length i hilt hilt
  · decide
  · have h1 : FixedBitWidthReader.getDictId ⟨[0x55, 0x0A], 5, 3⟩ 1 = Except.ok 20 := by
      simp [FixedBitWidthReader.getDictId, bitLoopFB]
      decide
    simp only [List.range_succ, List.range_zero, List.map_append, List.map_cons, List.map_nil,
      List.nil_append, List.cons_append, h1]
    refine congrArg (fun x => Except.ok 10 :: x) ?_
    refine congrArg (fun x => Except.ok 20 :: x) ?_
    decide

/-- Witness for C1: the round-trip applied at `b = 5`, `vals = [10, 20, 5]`. -/
theorem C1_bitpack_roundtrip_witness :
    FixedBitWidthReader.readAll ⟨packBits 5 [10, 20, 5], 5, 3⟩ = Except.ok [10, 20, 5] :=
  C1_bitpack_roundtrip.1 5 [10, 20, 5] (by decide) (by decide) (by decide)

/-- The multi-byte loop succeeds exactly when its last byte, at index
`off + (left - 1) / 8`, is inside the buffer; otherwise it reports
`InvalidFormat`. -/
theorem bitLoopFB_cases (buffer : List Nat) :
    ∀ left, 1 ≤ left → ∀ acc off,
      (off + (left - 1) / 8 < buffer.length ∧
        ∃ v, bitLoopFB buffer acc off left = Except.ok v)
      ∨ (buffer.length ≤ off + (left - 1) / 8 ∧
        ∃ msg, bitLoopFB buffer acc off left = Except.error (Err.invalidFormat msg)) := by
  intro left
  induction left using Nat.strong_induction_on with
  | _ left ih =>
    intro hleft acc off
    by_cases h8 : 8 < left
    · by_cases hov : buffer.length ≤ off
      · right
        constructor
        · omega
        · rw [bitLoopFB, if_pos h8, if_pos hov]
          exact ⟨_, rfl⟩
      · have hrec := ih (left - 8) (by omega) (by omega)
          (((acc <<< 8) % 2 ^ 32) ||| buffer.getD off 0) (off + 1)
        have heq : off + 1 + (left - 8 - 1) / 8 = off + (left - 1) / 8 := by omega
        rw [bitLoopFB, if_pos h8, if_neg hov]
        rw [heq] at hrec
        exact hrec
    · have hdiv : (left - 1) / 8 = 0 := by omega
      by_cases hov : buffer.length ≤ off
      · right
        constructor
        · omega
        · rw [bitLoopFB, if_neg h8, if_pos hov]
          exact ⟨_, rfl⟩
      · left
        constructor
        · omega
        · rw [bitLoopFB, if_neg h8, if_neg hov]
          exact ⟨_, rfl⟩

/-- C10: `FixedBitWidthReader::read` rejects a declared size smaller than
the 8-byte magic marker with `InvalidFormat`, and `get_dict_id` is total:
it returns `Ok` exactly when the doc id is in range and every byte needed to
decode it lies inside the buffer, and otherwise returns an `InvalidFormat`
error (it never reads past the buffer). -/
theorem C10_fixed_bit_safety :
    (∀ (file : List Nat) (offset size bpv numv : Nat),
      offset + size ≤ file.length → size < 8 →
      FixedBitWidthReader.read file offset size bpv numv
        = Except.error (Err.invalidFormat ("Forward index too small to contain magic marker")))
    ∧ (∀ (r : FixedBitWidthReader) (docId : Nat), 1 ≤ r.bitsPerValue →
        (docId < r.numValues ∧
            (docId * r.bitsPerValue + r.bitsPerValue - 1) / 8 < r.buffer.length →
          ∃ v, r.getDictId docId = Except.ok v)
        ∧ (r.numValues ≤ docId ∨
            r.buffer.length ≤ (docId * r.bitsPerValue + r.bitsPerValue - 1) / 8 →
          ∃ msg, r.getDictId docId = Except.error (Err.invalidFormat msg))) := by
  constructor
  · intro file offset size bpv numv hread hsize
    unfold FixedBitWidthReader.read
    rw [if_pos hread, if_neg (by omega)]
  · intro r docId hb
    by_cases hrange : r.numValues ≤ docId
    · constructor
      · intro h; omega
      · intro _
        have heq : r.getDictId docId
            = Except.error (Err.invalidFormat ("doc_id out of range")) := by
          unfold FixedBitWidthReader.getDictId
          rw [if_pos hrange]
        exact ⟨_, heq⟩
    · set b := r.bitsPerValue with hbdef
      set s := docId * b with hsdef
      set lastB := (s + b - 1) / 8 with hlastdef
      have hqle : s / 8 ≤ lastB := by omega
      by_cases hq : r.buffer.length ≤ s / 8
      · constructor
        · intro h; omega
        · intro _
          have heq : r.getDictId docId
              = Except.error (Err.invalidFormat ("Buffer overflow")) := by
            unfold FixedBitWidthReader.getDictId
            rw [if_neg hrange]
            simp only []
            rw [if_pos hq]
          exact ⟨_, heq⟩
      · by_cases hfits : b + s % 8 ≤ 8
        · have hlast : lastB = s / 8 := by omega
          constructor
          · intro _
            have heq : r.getDictId docId
                = Except.ok ((r.buffer.getD (s / 8) 0 &&& (0xFF >>> (s % 8)))
                    >>> (8 - s % 8 - b)) := by
              unfold FixedBitWidthReader.getDictId
              rw [if_neg hrange]
              simp only []
              rw [if_neg hq, if_pos hfits]
            exact ⟨_, heq⟩
          · intro hbad
            omega
        · have hloop := bitLoopFB_cases r.buffer (b + s % 8 - 8) (by omega)
            (r.buffer.getD (s / 8) 0 &&& (0xFF >>> (s % 8))) (s / 8 + 1)
          have heq : s / 8 + 1 + (b + s % 8 - 8 - 1) / 8 = lastB := by omega
          rw [heq] at hloop
          have hunfold : r.getDictId docId
              = bitLoopFB r.buffer (r.buffer.getD (s / 8) 0 &&& (0xFF >>> (s % 8)))
                  (s / 8 + 1) (b + s % 8 - 8) := by
            unfold FixedBitWidthReader.getDictId
            rw [if_neg hrange]
            simp only []
            rw [if_neg hq, if_neg hfits]
          rcases hloop with ⟨hlt, v, hok⟩ | ⟨hge, msg, herr⟩
          · constructor
            · intro _
              exact ⟨v, by rw [hunfold]; exact hok⟩
            · intro hbad
              omega
          · constructor
            · intro hgood
              omega
            · intro _
              exact ⟨msg, by rw [hunfold]; exact herr⟩

/-- Witness for C10: at `b = 4`, a one-byte buffer holds doc id 0 but not
doc id 2, and a 4-byte declared size is rejected. -/
theorem C10_fixed_bit_safety_witness :
    FixedBitWidthReader.read [1, 2, 3, 4] 0 4 4 4
        = Except.error (Err.invalidFormat ("Forward index too small to contain magic marker"))
    ∧ (∃ v, FixedBitWidthReader.getDictId ⟨[0x5A], 4, 2⟩ 0 = Except.ok v)
    ∧ (∃ msg, FixedBitWidthReader.getDictId ⟨[0x5A], 4, 3⟩ 2
        = Except.error (Err.invalidFormat msg)) :=
  ⟨C10_fixed_bit_safety.1 [1, 2, 3, 4] 0 4 4 4 (by decide) (by decide),
   (C10_fixed_bit_safety.2 ⟨[0x5A], 4, 2⟩ 0 (by decide)).1 (by decide),
   (C10_fixed_bit_safety.2 ⟨[0x5A], 4, 3⟩ 2 (by decide)).2 (by decide)⟩


/-! ### Text parser lemmas -/

theorem dropWhile_eq_self_of {p : Char → Bool} (l : List Char) (h : ∀ x ∈ l, ¬ p x) :
    l.dropWhile p = l := by
  cases l with
  | nil => rfl
  | cons x xs =>
    rw [List.dropWhile_cons, if_neg (by simpa using h x (by simp))]

theorem trimChars_of_clean (l : List Char) (h : ∀ x ∈ l, ¬ x.isWhitespace) :
    trimChars l = l := by
  unfold trimChars
  rw [dropWhile_eq_self_of l h,
    dropWhile_eq_self_of _ (fun x hx => h x (List.mem_reverse.mp hx)),
    List.reverse_reverse]

theorem splitOnChar_ne_nil (c : Char) (l : List Char) : splitOnChar c l ≠ [] := by
  induction l with
  | nil => simp [splitOnChar]
  | cons x xs ih =>
    rw [splitOnChar]
    rcases hx : splitOnChar c xs with _ | ⟨hh, tt⟩
    · exact (ih hx).elim
    · dsimp only
      split <;> simp

theorem splitOnChar_of_not_mem (c : Char) (l : List Char) (h : c ∉ l) :
    splitOnChar c l = [l] := by
  induction l with
  | nil => rfl
  | cons x xs ih =>
    have hxc : ¬ x = c := fun he => h (by simp [he])
    rw [splitOnChar, ih (fun hc => h (by simp [hc]))]
    simp [hxc]

theorem splitOnChar_append (c : Char) (p l : List Char) (hp : c ∉ p) :
    splitOnChar c (p ++ c :: l) = p :: splitOnChar c l := by
  induction p with
  | nil =>
    rw [List.nil_append, splitOnChar]
    rcases hx : splitOnChar c l with _ | ⟨hh, tt⟩
    · exact (splitOnChar_ne_nil c l hx).elim
    · simp
  | cons x xs ih =>
    rw [List.cons_append, splitOnChar, ih (fun hc => hp (by simp [hc]))]
    have hxc : ¬ x = c := fun he => hp (by simp [he])
    simp [hxc]

theorem splitOnChar_joinSep (c : Char) (parts : List (List Char)) (hne : parts ≠ [])
    (hc : ∀ p ∈ parts, c ∉ p) : splitOnChar c (joinSep c parts) = parts := by
  induction parts with
  | nil => exact (hne rfl).elim
  | cons p ps ih =>
    cases ps with
    | nil =>
      rw [show joinSep c [p] = p from rfl]
      exact splitOnChar_of_not_mem c p (hc p (by simp))
    | cons q qs =>
      rw [show joinSep c (p :: q :: qs) = p ++ c :: joinSep c (q :: qs) from rfl,
        splitOnChar_append c p _ (hc p (by simp)),
        ih (by simp) (fun r hr => hc r (by simp [hr]))]

theorem mem_joinSep (c sep : Char) (parts : List (List Char)) (h : c ∈ joinSep sep parts) :
    c = sep ∨ ∃ p, p ∈ parts ∧ c ∈ p := by
  induction parts with
  | nil => simp [joinSep] at h
  | cons p ps ih =>
    cases ps with
    | nil => exact Or.inr ⟨p, by simp, h⟩
    | cons q qs =>
      rw [show joinSep sep (p :: q :: qs) = p ++ sep :: joinSep sep (q :: qs) from rfl] at h
      rcases List.mem_append.mp h with h1 | h2
      · exact Or.inr ⟨p, by simp, h1⟩
      · rcases List.mem_cons.mp h2 with h3 | h4
        · exact Or.inl h3
        · rcases ih h4 with h5 | ⟨r, hr, hcr⟩
          · exact Or.inl h5
          · exact Or.inr ⟨r, by simp [hr], hcr⟩

theorem splitAtFirst_append (c : Char) (p l : List Char) (hp : c ∉ p) :
    splitAtFirst c (p ++ c :: l) = some (p, l) := by
  induction p with
  | nil => simp [splitAtFirst]
  | cons x xs ih =>
    rw [List.cons_append, splitAtFirst, if_neg (fun he => hp (by simp [he])),
      ih (fun hc => hp (by simp [hc]))]
    rfl

theorem digit_not_ws (c : Char) (h : c.isDigit) : ¬ c.isWhitespace := by
  intro hw
  simp [Char.isWhitespace] at hw
  rcases hw with ((hc | hc) | hc) | hc <;> subst hc <;> revert h <;> decide

theorem parseUsizeChars_digits (l : List Char) (hne : l ≠ []) (hd : ∀ c ∈ l, c.isDigit) :
    parseUsizeChars l = some (l.foldl (fun a c => 10 * a + (c.toNat - 48)) 0) := by
  unfold parseUsizeChars
  have hplus : ¬ l.head? = some '+' := by
    cases l with
    | nil => simp
    | cons x xs =>
      simp only [List.head?, Option.some.injEq]
      intro he
      have hx := hd x (by simp)
      subst he
      revert hx
      decide
  rw [if_neg hplus, if_neg hne, if_pos (List.all_eq_true.mpr (fun c hc => hd c hc))]
/-- Parsing one clean `key=value` line: the key is split right-to-left into
column name, index type and property, and the map is updated accordingly. -/
theorem parseIndexLine_clean
    (m : List ((List Char × List Char) × IndexLocation))
    (parts : List (List Char)) (value : List Char) (v : Nat)
    (hlen : 3 ≤ parts.length)
    (hclean : ∀ p ∈ parts, ∀ c ∈ p, c ≠ '.' ∧ c ≠ '=' ∧ c ≠ '#' ∧ ¬ c.isWhitespace)
    (hvne : value ≠ []) (hvd : ∀ c ∈ value, c.isDigit)
    (hv : parseUsizeChars value = some v) :
    parseIndexLine m (joinSep '.' parts ++ '=' :: value)
      = Except.ok (ixUpsert m
          (joinSep '.' (parts.take (parts.length - 2)), parts.getD (parts.length - 2) [])
          (parts.getD (parts.length - 1) []) v) := by
  have hkey_nws : ∀ c ∈ joinSep '.' parts, ¬ c.isWhitespace := by
    intro c hc
    rcases mem_joinSep c '.' parts hc with h | ⟨p, hp, hcp⟩
    · subst h; decide
    · exact (hclean p hp c hcp).2.2.2
  have hline_nws : ∀ c ∈ joinSep '.' parts ++ '=' :: value, ¬ c.isWhitespace := by
    intro c hc
    rcases List.mem_append.mp hc with h | h
    · exact hkey_nws c h
    · rcases List.mem_cons.mp h with h | h
      · subst h; decide
      · exact digit_not_ws c (hvd c h)
  have hlne : joinSep '.' parts ++ '=' :: value ≠ [] := by simp
  have hhead : ¬ (joinSep '.' parts ++ '=' :: value).head? = some '#' := by
    cases hj : joinSep '.' parts with
    | nil =>
      rw [List.nil_append]
      intro h
      rw [show ('=' :: value).head? = some '=' from rfl] at h
      exact absurd (Option.some.inj h) (by decide)
    | cons a as =>
      have ha : a ∈ joinSep '.' parts := by rw [hj]; simp
      have hane : a ≠ '#' := by
        rcases mem_joinSep a '.' parts ha with h | ⟨p, hp, hap⟩
        · subst h; decide
        · exact (hclean p hp a hap).2.2.1
      simp [hane]
  have hnoeq : '=' ∉ joinSep '.' parts := by
    intro hc
    rcases mem_joinSep '=' '.' parts hc with h | ⟨p, hp, hcp⟩
    · exact absurd h (by decide)
    · exact (hclean p hp '=' hcp).2.1 rfl
  have hnodot : ∀ p ∈ parts, '.' ∉ p := fun p hp hc => (hclean p hp '.' hc).1 rfl
  have hpne : parts ≠ [] := by intro h; rw [h] at hlen; simp at hlen
  unfold parseIndexLine
  rw [trimChars_of_clean _ hline_nws, if_neg (by push_neg; exact ⟨hlne, hhead⟩),
    splitAtFirst_append '=' _ _ hnoeq]
  dsimp only
  rw [trimChars_of_clean _ hkey_nws,
    trimChars_of_clean value (fun c hc => digit_not_ws c (hvd c hc)),
    splitOnChar_joinSep '.' parts hpne hnodot]
  rw [if_neg (by omega), hv]

theorem ixApply_unknown (property : List Char) (v : Nat) (loc : IndexLocation)
    (h1 : property ≠ kwStartOffset) (h2 : property ≠ kwSize) :
    ixApply property v loc = loc := by
  unfold ixApply
  rw [if_neg h1, if_neg h2]

theorem ixLookup_ixUpsert (m : List ((List Char × List Char) × IndexLocation))
    (key : List Char × List Char) (property : List Char) (v : Nat)
    (k : List Char × List Char) :
    ixLookup (ixUpsert m key property v) k
      = if k = key then some (ixApply property v ((ixLookup m key).getD ⟨0, 0⟩))
        else ixLookup m k := by
  induction m with
  | nil =>
    by_cases hk : k = key
    · subst hk
      simp [ixUpsert, ixLookup]
    · rw [if_neg hk]
      simp only [ixUpsert, ixLookup]
      rw [if_neg (fun h => hk h.symm)]
  | cons e rest ih =>
    by_cases he : e.1 = key
    · rw [ixUpsert, if_pos he]
      by_cases hk : k = key
      · subst hk
        rw [if_pos rfl, ixLookup, if_pos he, ixLookup, if_pos he]
        rfl
      · rw [if_neg hk, ixLookup, ixLookup, if_neg (by rw [he]; exact fun h => hk h.symm),
          if_neg (by rw [he]; exact fun h => hk h.symm)]
    · rw [ixUpsert, if_neg he]
      by_cases hk : k = key
      · subst hk
        rw [if_pos rfl, ixLookup, if_neg he, ih, if_pos rfl, ixLookup, if_neg he]
      · rw [if_neg hk, ixLookup, ixLookup]
        by_cases hek : e.1 = k
        · rw [if_pos hek, if_pos hek]
        · rw [if_neg hek, if_neg hek, ih, if_neg hk]

/-- C5: a key with at least three dot-segments is parsed right-to-left: the
last segment is the property, the second-to-last the index type, and all
preceding segments joined with dots form the column name; in particular
`a.b.c.forward_index.startOffset` yields an entry for column `a.b.c` under
`forward_index`, and none for column `a`. -/
theorem C5_index_map_right_to_left :
    (∀ (parts : List (List Char)) (value : List Char) (v : Nat),
      3 ≤ parts.length →
      (∀ p ∈ parts, ∀ c ∈ p, c ≠ '.' ∧ c ≠ '=' ∧ c ≠ '#' ∧ ¬ c.isWhitespace) →
      value ≠ [] → (∀ c ∈ value, c.isDigit) → parseUsizeChars value = some v →
      IndexMap.parse (joinSep '.' parts ++ '=' :: value)
        = Except.ok ⟨[((joinSep '.' (parts.take (parts.length - 2)),
            parts.getD (parts.length - 2) []),
            ixApply (parts.getD (parts.length - 1) []) v ⟨0, 0⟩)]⟩)
    ∧ (IndexMap.parse ("a.b.c.forward_index.startOffset=17".toList)).map
        (fun m => (ixLookup m.indexes ("a.b.c".toList, kwForwardIndex),
          ixLookup m.indexes ("a".toList, kwForwardIndex),
          ixLookup m.indexes ("a".toList, kwDictionary)))
      = Except.ok (some ⟨17, 0⟩, none, none) := by
  constructor
  · intro parts value v hlen hclean hvne hvd hv
    have hnl : '\n' ∉ joinSep '.' parts ++ '=' :: value := by
      intro hc
      rcases List.mem_append.mp hc with h | h
      · rcases mem_joinSep _ '.' parts h with h1 | ⟨p, hp, hcp⟩
        · exact absurd h1 (by decide)
        · exact (hclean p hp _ hcp).2.2.2 (by decide)
      · rcases List.mem_cons.mp h with h1 | h1
        · exact absurd h1.symm (by decide)
        · exact digit_not_ws _ (hvd _ h1) (by decide)
    unfold IndexMap.parse
    rw [splitOnChar_of_not_mem _ _ hnl, List.foldlM_cons,
      parseIndexLine_clean [] parts value v hlen hclean hvne hvd hv]
    rfl
  · decide

/-- Witness for C5: the general statement applied at the key
`col.x.forward_index.size` with value `99`. -/
theorem C5_index_map_right_to_left_witness :
    IndexMap.parse (joinSep '.' ["col".toList, "x".toList, kwForwardIndex, kwSize]
        ++ '=' :: ['9', '9'])
      = Except.ok ⟨[(("col.x".toList, kwForwardIndex), ixApply kwSize 99 ⟨0, 0⟩)]⟩ :=
  C5_index_map_right_to_left.1 ["col".toList, "x".toList, kwForwardIndex, kwSize]
    ['9', '9'] 99 (by decide) (by decide) (by decide) (by decide) (by decide)

/-- C8 counterexample: the line `a.forward_index.bogus=5` has an unknown
property, yet parsing it still creates the entry
`(a, forward_index) ↦ {start_offset: 0, size: 0}`, so the resulting map is
not identical to the map parsed from the input with the line removed. -/
theorem C8_counterexample :
    (IndexMap.parse ("a.forward_index.bogus=5".toList)).map
        (fun m => ixLookup m.indexes ("a".toList, kwForwardIndex))
      = Except.ok (some ⟨0, 0⟩)
    ∧ (IndexMap.parse ([])).map
        (fun m => ixLookup m.indexes ("a".toList, kwForwardIndex))
      = Except.ok none := by
  decide

/-- C8 (amended): a line whose last dot-segment is neither `startOffset` nor
`size` has its numeric value discarded and sets no field, but it still
inserts a default `{start_offset: 0, size: 0}` entry for its
`(column, index_type)` key when that key is absent; entries for all other
keys, and the stored location of an already-present key, are unchanged. -/
theorem C8_index_map_unknown_property :
    ∀ (m : List ((List Char × List Char) × IndexLocation))
      (parts : List (List Char)) (value : List Char) (v : Nat),
      3 ≤ parts.length →
      (∀ p ∈ parts, ∀ c ∈ p, c ≠ '.' ∧ c ≠ '=' ∧ c ≠ '#' ∧ ¬ c.isWhitespace) →
      value ≠ [] → (∀ c ∈ value, c.isDigit) → parseUsizeChars value = some v →
      parts.getD (parts.length - 1) [] ≠ kwStartOffset →
      parts.getD (parts.length - 1) [] ≠ kwSize →
      parseIndexLine m (joinSep '.' parts ++ '=' :: value)
        = Except.ok (ixUpsert m
            (joinSep '.' (parts.take (parts.length - 2)), parts.getD (parts.length - 2) [])
            (parts.getD (parts.length - 1) []) v)
      ∧ (∀ k, ixLookup (ixUpsert m
            (joinSep '.' (parts.take (parts.length - 2)), parts.getD (parts.length - 2) [])
            (parts.getD (parts.length - 1) []) v) k
          = if k = (joinSep '.' (parts.take (parts.length - 2)),
                parts.getD (parts.length - 2) [])
            then some ((ixLookup m (joinSep '.' (parts.take (parts.length - 2)),
                parts.getD (parts.length - 2) [])).getD ⟨0, 0⟩)
            else ixLookup m k) := by
  intro m parts value v hlen hclean hvne hvd hv hp1 hp2
  constructor
  · exact parseIndexLine_clean m parts value v hlen hclean hvne hvd hv
  · intro k
    rw [ixLookup_ixUpsert, ixApply_unknown _ _ _ hp1 hp2]

/-- Witness for C8's amended statement: the unknown property `bogus` applied
to a map already holding an entry for `(a, forward_index)`. -/
theorem C8_index_map_unknown_property_witness :
    parseIndexLine [(("a".toList, kwForwardIndex), ⟨7, 9⟩)]
        (joinSep '.' ["a".toList, kwForwardIndex, "bogus".toList] ++ '=' :: ['5'])
      = Except.ok (ixUpsert [(("a".toList, kwForwardIndex), ⟨7, 9⟩)]
          ("a".toList, kwForwardIndex) ("bogus".toList) 5)
    ∧ ixLookup (ixUpsert [(("a".toList, kwForwardIndex), ⟨7, 9⟩)]
          ("a".toList, kwForwardIndex) ("bogus".toList) 5)
        ("a".toList, kwForwardIndex) = some ⟨7, 9⟩ := by
  have h := C8_index_map_unknown_property [(("a".toList, kwForwardIndex), ⟨7, 9⟩)]
    ["a".toList, kwForwardIndex, "bogus".toList] ['5'] 5
    (by decide) (by decide) (by decide) (by decide) (by decide) (by decide) (by decide)
  refine ⟨?_, ?_⟩
  · have h1 := h.1
    simpa using h1
  · have h2 := h.2 ("a".toList, kwForwardIndex)
    simpa using h2


/-- C6 counterexample: after `\u` with only the two characters `12` left,
`take(4)` yields `"12"`, `from_str_radix` accepts it, and the decoder emits
the character U+0012 instead of preserving `\u12` verbatim. -/
theorem C6_counterexample :
    decodeJavaString ('\\' :: 'u' :: '1' :: '2' :: []) = [Char.ofNat 18]
    ∧ decodeJavaString ('\\' :: 'u' :: '1' :: '2' :: [])
      ≠ '\\' :: 'u' :: '1' :: '2' :: [] := by
  decide

/-- C6 (amended): `decode_java_string` unescapes `\uXXXX` (hex, valid code
point) to the corresponding character and unescapes `\t`, `\n`, `\r`, `\\`;
a `\u` sequence whose taken characters fail Rust's hex parse (which permits a
leading `+`) or denote an invalid code point is preserved verbatim; but when
fewer than four characters remain after `\u`, the shorter tail is parsed the
same way and is decoded rather than preserved whenever it forms a valid hex
code.  The decoder is a total function and never returns an error. -/
theorem C6_decode_java_string :
    (∀ rest : List Char,
      decodeJavaString ('\\' :: 't' :: rest) = '\t' :: decodeJavaString rest
      ∧ decodeJavaString ('\\' :: 'n' :: rest) = '\n' :: decodeJavaString rest
      ∧ decodeJavaString ('\\' :: 'r' :: rest) = '\r' :: decodeJavaString rest
      ∧ decodeJavaString ('\\' :: '\\' :: rest) = '\\' :: decodeJavaString rest)
    ∧ (∀ (h1 h2 h3 h4 : Char) (rest : List Char) (code : Nat),
      fromStrRadix16 [h1, h2, h3, h4] = some code → Nat.isValidChar code →
      decodeJavaString ('\\' :: 'u' :: h1 :: h2 :: h3 :: h4 :: rest)
        = Char.ofNat code :: decodeJavaString rest)
    ∧ (∀ (h1 h2 h3 h4 : Char) (rest : List Char),
      fromStrRadix16 [h1, h2, h3, h4] = none →
      decodeJavaString ('\\' :: 'u' :: h1 :: h2 :: h3 :: h4 :: rest)
        = '\\' :: 'u' :: h1 :: h2 :: h3 :: h4 :: decodeJavaString rest)
    ∧ (∀ (h1 h2 h3 h4 : Char) (rest : List Char) (code : Nat),
      fromStrRadix16 [h1, h2, h3, h4] = some code → ¬ Nat.isValidChar code →
      decodeJavaString ('\\' :: 'u' :: h1 :: h2 :: h3 :: h4 :: rest)
        = '\\' :: 'u' :: h1 :: h2 :: h3 :: h4 :: decodeJavaString rest)
    ∧ (∀ (rest2 : List Char) (code : Nat), rest2.length < 4 →
      fromStrRadix16 rest2 = some code → Nat.isValidChar code →
      decodeJavaString ('\\' :: 'u' :: rest2) = [Char.ofNat code])
    ∧ (∀ rest2 : List Char, rest2.length < 4 →
      fromStrRadix16 rest2 = none →
      decodeJavaString ('\\' :: 'u' :: rest2) = '\\' :: 'u' :: rest2) := by
  have huCase_ok : ∀ (hex tail : List Char) (code : Nat),
      fromStrRadix16 hex = some code → Nat.isValidChar code →
      uCase hex tail = Char.ofNat code :: tail := by
    intro hex tail code hp hv
    unfold uCase
    rw [hp]
    dsimp only
    rw [if_pos hv]
  have huCase_none : ∀ hex tail : List Char,
      fromStrRadix16 hex = none → uCase hex tail = '\\' :: 'u' :: (hex ++ tail) := by
    intro hex tail hp
    unfold uCase
    rw [hp]
  have huCase_bad : ∀ (hex tail : List Char) (code : Nat),
      fromStrRadix16 hex = some code → ¬ Nat.isValidChar code →
      uCase hex tail = '\\' :: 'u' :: (hex ++ tail) := by
    intro hex tail code hp hv
    unfold uCase
    rw [hp]
    dsimp only
    rw [if_neg hv]
  have hshort : ∀ rest2 : List Char, rest2.length < 4 →
      decodeJavaString ('\\' :: 'u' :: rest2) = uCase rest2 [] := by
    intro rest2 hlt
    match rest2 with
    | [] => rfl
    | [a] => rfl
    | [a, b] => rfl
    | [a, b, c] => rfl
    | a :: b :: c :: d :: r =>
      rw [List.length_cons, List.length_cons, List.length_cons, List.length_cons] at hlt
      omega
  refine ⟨fun rest => ⟨rfl, rfl, rfl, rfl⟩, ?_, ?_, ?_, ?_, ?_⟩
  · intro h1 h2 h3 h4 rest code hp hv
    rw [show decodeJavaString ('\\' :: 'u' :: h1 :: h2 :: h3 :: h4 :: rest)
        = uCase [h1, h2, h3, h4] (decodeJavaString rest) from rfl,
      huCase_ok _ _ _ hp hv]
  · intro h1 h2 h3 h4 rest hp
    rw [show decodeJavaString ('\\' :: 'u' :: h1 :: h2 :: h3 :: h4 :: rest)
        = uCase [h1, h2, h3, h4] (decodeJavaString rest) from rfl,
      huCase_none _ _ hp]
    rfl
  · intro h1 h2 h3 h4 rest code hp hv
    rw [show decodeJavaString ('\\' :: 'u' :: h1 :: h2 :: h3 :: h4 :: rest)
        = uCase [h1, h2, h3, h4] (decodeJavaString rest) from rfl,
      huCase_bad _ _ _ hp hv]
    rfl
  · intro rest2 code hlt hp hv
    rw [hshort rest2 hlt, huCase_ok _ _ _ hp hv]
  · intro rest2 hlt hp
    rw [hshort rest2 hlt, huCase_none _ _ hp]
    simp

/-- Witness for C6's amended statement: `A` decodes to `A`, and `\uZZZZ`
is preserved verbatim. -/
theorem C6_decode_java_string_witness :
    decodeJavaString ('\\' :: 'u' :: '0' :: '0' :: '4' :: '1' :: ['x'])
      = Char.ofNat 65 :: decodeJavaString ['x']
    ∧ decodeJavaString ('\\' :: 'u' :: 'Z' :: 'Z' :: 'Z' :: 'Z' :: ['x'])
      = '\\' :: 'u' :: 'Z' :: 'Z' :: 'Z' :: 'Z' :: decodeJavaString ['x'] :=
  ⟨C6_decode_java_string.2.1 '0' '0' '4' '1' ['x'] 65 (by decide) (by decide),
   C6_decode_java_string.2.2.1 'Z' 'Z' 'Z' 'Z' ['x'] (by decide)⟩


/-- C9: every dictionary read checks the first 8 bytes at the offset as a
big-endian u64 magic marker; a value other than `0xDEADBEEFDEAFBEAD` fails
with `InvalidFormat`, for every data type, and no values are returned. -/
theorem C9_dictionary_magic :
    ∀ (utf8 : List Nat → Option (List Char)) (file : List Nat)
      (offset size : Nat) (dt : DataType) (card lone : Nat),
      offset + 8 ≤ file.length →
      beVal ((file.drop offset).take 8) ≠ MAGIC_MARKER →
      DictionaryReader.read utf8 file offset size dt card lone
        = Except.error (Err.invalidFormat ("Invalid magic marker")) := by
  intro utf8 file offset size dt card lone hlen hmagic
  unfold DictionaryReader.read
  rw [show readBytesAt file offset 8 = Except.ok ((file.drop offset).take 8) from by
    unfold readBytesAt; rw [if_pos hlen]]
  show (if beVal ((file.drop offset).take 8) ≠ MAGIC_MARKER then _ else _) = _
  rw [if_pos hmagic]

/-- Witness for C9: a file of 8 zero bytes is rejected. -/
theorem C9_dictionary_magic_witness :
    DictionaryReader.read (fun _ => none) [0, 0, 0, 0, 0, 0, 0, 0] 0 8
        DataType.int 1 0
      = Except.error (Err.invalidFormat ("Invalid magic marker")) :=
  C9_dictionary_magic (fun _ => none) [0, 0, 0, 0, 0, 0, 0, 0] 0 8
    DataType.int 1 0 (by decide) (by decide)

theorem readFixedVals_ok_length (file : List Nat) (width : Nat) :
    ∀ (n pos : Nat) (bss : List (List Nat)),
      readFixedVals file width pos n = Except.ok bss → bss.length = n := by
  intro n
  induction n with
  | zero =>
    intro pos bss h
    cases h
    rfl
  | succ n ih =>
    intro pos bss h
    rw [readFixedVals] at h
    cases hb : readBytesAt file pos width with
    | error e => rw [hb] at h; cases h
    | ok bs =>
      rw [hb] at h
      cases hr : readFixedVals file width (pos + width) n with
      | error e => rw [hr] at h; cases h
      | ok rest =>
        rw [hr] at h
        cases h
        rw [List.length_cons, ih (pos + width) rest hr]

theorem dictRead_int_length (utf8 : List Nat → Option (List Char)) (file : List Nat)
    (offset size card lone : Nat) (d : DictionaryReader) (vals : List Int)
    (hread : DictionaryReader.read utf8 file offset size DataType.int card lone
      = Except.ok d)
    (hv : d.values = DictionaryValue.intv vals) : vals.length = card := by
  rw [DictionaryReader.read] at hread
  cases hb : readBytesAt file offset 8 with
  | error e => rw [hb] at hread; cases hread
  | ok mb =>
    rw [hb] at hread
    by_cases hm : beVal mb ≠ MAGIC_MARKER
    · rw [show (Except.ok mb >>= fun magicBytes =>
          if beVal magicBytes ≠ MAGIC_MARKER then
            Except.error (Err.invalidFormat ("Invalid magic marker"))
          else _ : Except Err DictionaryReader)
          = if beVal mb ≠ MAGIC_MARKER then
            Except.error (Err.invalidFormat ("Invalid magic marker")) else _ from rfl,
        if_pos hm] at hread
      cases hread
    · rw [show (Except.ok mb >>= fun magicBytes =>
          if beVal magicBytes ≠ MAGIC_MARKER then
            Except.error (Err.invalidFormat ("Invalid magic marker"))
          else _ : Except Err DictionaryReader)
          = if beVal mb ≠ MAGIC_MARKER then
            Except.error (Err.invalidFormat ("Invalid magic marker")) else _ from rfl,
        if_neg hm] at hread
      cases hf : readFixedVals file 4 (offset + 8) card with
      | error e => rw [hf] at hread; cases hread
      | ok bss =>
        rw [hf] at hread
        cases hread
        have hv2 : DictionaryValue.intv (bss.map i32FromBeBytes)
            = DictionaryValue.intv vals := hv
        cases hv2
        rw [List.length_map]
        exact readFixedVals_ok_length file 4 card (offset + 8) bss hf

theorem lookupIntIds_all (d : DictionaryReader) (vals : List Int)
    (hv : d.values = DictionaryValue.intv vals) :
    ∀ ids : List Nat, (∀ id ∈ ids, id < vals.length) →
      lookupIntIds d ids = Except.ok (ids.map (fun id => vals.getD id 0)) := by
  intro ids
  induction ids with
  | nil => intro _; rfl
  | cons id ids ih =>
    intro h
    have hid : id < vals.length := h id (by simp)
    have hget : d.getInt id = some (vals.getD id 0) := by
      rw [DictionaryReader.getInt, hv]
      show vals[id]? = some (vals.getD id 0)
      rw [List.getElem?_eq_getElem hid, List.getD_eq_getElem vals 0 hid]
    rw [lookupIntIds, hget, ih (fun x hx => h x (by simp [hx]))]
    rfl

theorem lookupIntIds_out (d : DictionaryReader) (vals : List Int)
    (hv : d.values = DictionaryValue.intv vals) :
    ∀ ids : List Nat, (∃ id ∈ ids, vals.length ≤ id) →
      ∃ msg, lookupIntIds d ids = Except.error (Err.invalidFormat msg) := by
  intro ids
  induction ids with
  | nil => intro ⟨id, hid, _⟩; cases hid
  | cons id ids ih =>
    intro ⟨x, hx, hxe⟩
    cases hg : d.getInt id with
    | none => exact ⟨_, by rw [lookupIntIds, hg]⟩
    | some v =>
      have hid : id < vals.length := by
        by_contra hc
        rw [DictionaryReader.getInt, hv] at hg
        have hg2 : vals[id]? = some v := hg
        rw [List.getElem?_eq_none (by omega)] at hg2
        cases hg2
      have hxin : x ∈ ids := by
        rcases List.mem_cons.mp hx with h | h
        · omega
        · exact h
      obtain ⟨msg, hrec⟩ := ih ⟨x, hxin, hxe⟩
      refine ⟨msg, ?_⟩
      rw [lookupIntIds, hg, hrec]
      rfl

/-- C7: through `read_int_column`, once the dictionary (holding exactly
`cardinality` values) and the packed forward index are loaded, every packed
id below the cardinality resolves to a defined dictionary value via
`DictionaryReader::get_int`, and any packed id at or above the cardinality
makes the read fail with `InvalidFormat`. -/
theorem C7_dictionary_lookup :
    ∀ (utf8 : List Nat → Option (List Char)) (sr : SegmentReader)
      (cn : List Char) (cm : ColumnMetadata) (dictLoc fwdLoc : IndexLocation)
      (d : DictionaryReader) (fr : FixedBitWidthReader) (ids : List Nat)
      (vals : List Int),
      sr.metadata.getColumn cn = Except.ok cm →
      cm.dataType = DataType.int → cm.hasDictionary = true →
      ixLookup sr.indexMap.indexes (cn, kwDictionary) = some dictLoc →
      ixLookup sr.indexMap.indexes (cn, kwForwardIndex) = some fwdLoc →
      DictionaryReader.read utf8 sr.file dictLoc.startOffset dictLoc.size cm.dataType
        cm.cardinality cm.lengthOfEachEntry = Except.ok d →
      d.values = DictionaryValue.intv vals →
      FixedBitWidthReader.read sr.file fwdLoc.startOffset fwdLoc.size cm.bitsPerElement
        cm.totalDocs = Except.ok fr →
      fr.readAll = Except.ok ids →
      vals.length = cm.cardinality
      ∧ ((∀ id ∈ ids, id < cm.cardinality) →
          SegmentReader.readIntColumn utf8 sr cn
            = Except.ok (ids.map (fun id => vals.getD id 0)))
      ∧ ((∃ id ∈ ids, cm.cardinality ≤ id) →
          ∃ msg, SegmentReader.readIntColumn utf8 sr cn
            = Except.error (Err.invalidFormat msg)) := by
  intro utf8 sr cn cm dictLoc fwdLoc d fr ids vals
  intro hcol hdt hdict hloc1 hloc2 hdread hdv hfread hrall
  have hlen : vals.length = cm.cardinality := by
    rw [hdt] at hdread
    exact dictRead_int_length utf8 sr.file dictLoc.startOffset dictLoc.size
      cm.cardinality cm.lengthOfEachEntry d vals hdread hdv
  have hpipe : SegmentReader.readIntColumn utf8 sr cn = lookupIntIds d ids := by
    rw [SegmentReader.readIntColumn, hcol]
    show (if cm.dataType ≠ DataType.int then _ else _) = _
    rw [if_neg (by rw [hdt]; exact fun h => h rfl)]
    rw [hdict, if_neg (by decide)]
    rw [hloc1]
    show (DictionaryReader.read utf8 sr.file dictLoc.startOffset dictLoc.size cm.dataType
        cm.cardinality cm.lengthOfEachEntry >>= _) = _
    rw [hdread]
    show (match ixLookup sr.indexMap.indexes (cn, kwForwardIndex) with
      | none => _ | some fwdLoc => _) = _
    rw [hloc2]
    show (FixedBitWidthReader.read sr.file fwdLoc.startOffset fwdLoc.size cm.bitsPerElement
        cm.totalDocs >>= _) = _
    rw [hfread]
    show (fr.readAll >>= _) = _
    rw [hrall]
    rfl
  refine ⟨hlen, ?_, ?_⟩
  · intro hall
    rw [hpipe]
    exact lookupIntIds_all d vals hdv ids (fun id hid => by
      have := hall id hid
      omega)
  · intro hout
    rw [hpipe]
    obtain ⟨id, hid, hge⟩ := hout
    exact lookupIntIds_out d vals hdv ids ⟨id, hid, by omega⟩


/-- Witness for C7: the scenario of a 3-entry INT dictionary `[10, 20, 30]`
with a 2-bit forward index `[0, 1, 2, 0]` over 4 docs decodes to
`[10, 20, 30, 10]`. -/
theorem C7_dictionary_lookup_witness :
    SegmentReader.readIntColumn (fun _ => none)
      ⟨[0xDE, 0xAD, 0xBE, 0xEF, 0xDE, 0xAF, 0xBE, 0xAD,
        0, 0, 0, 10, 0, 0, 0, 20, 0, 0, 0, 30,
        0xDE, 0xAD, 0xBE, 0xEF, 0xDE, 0xAF, 0xBE, 0xAD, 0x18],
       ⟨[], [], 4, [(['c'], ⟨['c'], DataType.int, 3, 4, 2, true, false, 0⟩)]⟩,
       ⟨[((['c'], kwDictionary), ⟨0, 20⟩), ((['c'], kwForwardIndex), ⟨20, 9⟩)]⟩⟩
      ['c']
    = Except.ok [10, 20, 30, 10] := by
  have h := C7_dictionary_lookup (fun _ => none)
    ⟨[0xDE, 0xAD, 0xBE, 0xEF, 0xDE, 0xAF, 0xBE, 0xAD,
      0, 0, 0, 10, 0, 0, 0, 20, 0, 0, 0, 30,
      0xDE, 0xAD, 0xBE, 0xEF, 0xDE, 0xAF, 0xBE, 0xAD, 0x18],
     ⟨[], [], 4, [(['c'], ⟨['c'], DataType.int, 3, 4, 2, true, false, 0⟩)]⟩,
     ⟨[((['c'], kwDictionary), ⟨0, 20⟩), ((['c'], kwForwardIndex), ⟨20, 9⟩)]⟩⟩
    ['c'] ⟨['c'], DataType.int, 3, 4, 2, true, false, 0⟩ ⟨0, 20⟩ ⟨20, 9⟩
    ⟨DictionaryValue.intv [10, 20, 30]⟩ ⟨[0x18], 2, 4⟩ [0, 1, 2, 0] [10, 20, 30]
    (by decide) (by decide) (by decide) (by decide) (by decide) (by decide) (by decide)
    (by decide) (by decide)
  have h2 := h.2.1 (by decide)
  rw [show List.map (fun id => List.getD [(10 : Int), 20, 30] id 0) [0, 1, 2, 0]
      = [10, 20, 30, 10] from by decide] at h2
  exact h2


/-! ### Batch adapter lemmas -/

theorem exceptBind_ok {ε α β : Type} (x : α) (f : α → Except ε β) :
    (Except.ok x >>= f) = f x := rfl

theorem exceptBind_err {ε α β : Type} (e : ε) (f : α → Except ε β) :
    ((Except.error e : Except ε α) >>= f) = Except.error e := rfl

theorem mapM_ok_length {ε α β : Type} (f : α → Except ε β) :
    ∀ (l : List α) (res : List β), l.mapM f = Except.ok res → res.length = l.length := by
  intro l
  induction l with
  | nil => intro res h; cases h; rfl
  | cons x xs ih =>
    intro res h
    rw [List.mapM_cons] at h
    cases hx : f x with
    | error e => rw [hx, exceptBind_err] at h; cases h
    | ok y =>
      rw [hx, exceptBind_ok] at h
      cases hr : xs.mapM f with
      | error e => rw [hr, exceptBind_err] at h; cases h
      | ok ys =>
        rw [hr, exceptBind_ok] at h
        cases h
        simp [ih ys hr]

theorem buildArrays_ok_count (seg : ExecSegment) (offset limit : Nat) :
    ∀ (names : List (List Char)) (arrs : List (List Int)) (cnt : Nat),
      buildArrays seg offset limit names = Except.ok (arrs, cnt) →
      cnt = names.length := by
  intro names
  induction names with
  | nil => intro arrs cnt h; cases h; rfl
  | cons name rest ih =>
    intro arrs cnt h
    rw [buildArrays] at h
    cases hm : seg.colMeta name with
    | none => rw [hm] at h; cases h
    | some dt =>
      rw [hm] at h
      dsimp only at h
      by_cases hdt : dt = DataType.bytes ∨ dt = DataType.boolean
      · rw [if_pos hdt] at h; cases h
      · rw [if_neg hdt] at h
        cases hv : seg.readCol name with
        | error e => rw [hv] at h; cases h
        | ok values =>
          rw [hv] at h
          dsimp only at h
          by_cases h1 : offset + limit ≤ values.length
          · rw [if_pos h1, exceptBind_ok] at h
            cases hr : buildArrays seg offset limit rest with
            | error e => rw [hr, exceptBind_err] at h; cases h
            | ok pr =>
              rw [hr, exceptBind_ok] at h
              cases h
              simp [ih pr.1 pr.2 (by rw [hr])]
          · rw [if_neg h1] at h
            by_cases h2 : offset ≤ values.length
            · rw [if_pos h2, exceptBind_ok] at h
              cases hr : buildArrays seg offset limit rest with
              | error e => rw [hr, exceptBind_err] at h; cases h
              | ok pr =>
                rw [hr, exceptBind_ok] at h
                cases h
                simp [ih pr.1 pr.2 (by rw [hr])]
            · rw [if_neg h2, exceptBind_err] at h
              cases h

theorem buildArrays_ok_lengths (seg : ExecSegment) (offset limit : Nat)
    (hol : offset + limit ≤ seg.totalDocs)
    (hread : ∀ name v, seg.readCol name = Except.ok v → v.length = seg.totalDocs) :
    ∀ (names : List (List Char)) (arrs : List (List Int)) (cnt : Nat),
      buildArrays seg offset limit names = Except.ok (arrs, cnt) →
      arrs.length = names.length ∧ ∀ a ∈ arrs, a.length = limit := by
  intro names
  induction names with
  | nil =>
    intro arrs cnt h
    cases h
    exact ⟨rfl, by simp⟩
  | cons name rest ih =>
    intro arrs cnt h
    rw [buildArrays] at h
    cases hm : seg.colMeta name with
    | none => rw [hm] at h; cases h
    | some dt =>
      rw [hm] at h
      dsimp only at h
      by_cases hdt : dt = DataType.bytes ∨ dt = DataType.boolean
      · rw [if_pos hdt] at h; cases h
      · rw [if_neg hdt] at h
        cases hv : seg.readCol name with
        | error e => rw [hv] at h; cases h
        | ok values =>
          rw [hv] at h
          dsimp only at h
          have hvl : values.length = seg.totalDocs := hread name values hv
          rw [if_pos (by omega), exceptBind_ok] at h
          cases hr : buildArrays seg offset limit rest with
          | error e => rw [hr, exceptBind_err] at h; cases h
          | ok pr =>
            rw [hr, exceptBind_ok] at h
            cases h
            obtain ⟨hl, hall⟩ := ih pr.1 pr.2 (by rw [hr])
            constructor
            · simp [hl]
            · intro a ha
              rcases List.mem_cons.mp ha with ha | ha
              · rw [ha, List.length_take, List.length_drop]
                omega
              · exact hall a ha

theorem createBatchCounted_ok_spec (seg : ExecSegment) (proj : Option (List Nat))
    (offset limit : Nat)
    (hol : offset + limit ≤ seg.totalDocs)
    (hread : ∀ name v, seg.readCol name = Except.ok v → v.length = seg.totalDocs) :
    ∀ (b : RecordBatch) (cnt : Nat),
      createBatchCounted seg proj offset limit = Except.ok (b, cnt) →
      b.rowCount = limit
      ∧ cnt = (match proj with
          | some p => p.length
          | none => seg.colNames.length)
      ∧ (proj = some [] → b.columns = []) := by
  have hnonempty : ∀ (names : List (List Char)) (b : RecordBatch) (cnt : Nat),
      ¬ names = [] →
      ((buildArrays seg offset limit names >>= fun pr =>
          (match pr with
          | (arrs, cnt) => tryNewBatch arrs >>= fun batch => Except.ok (batch, cnt)))
        = Except.ok (b, cnt)) →
      b.rowCount = limit ∧ cnt = names.length := by
    intro names b cnt hne h
    cases hb : buildArrays seg offset limit names with
    | error e => rw [hb, exceptBind_err] at h; cases h
    | ok pr =>
      obtain ⟨arrs1, cnt1⟩ := pr
      rw [hb, exceptBind_ok] at h
      dsimp only at h
      cases ht : tryNewBatch arrs1 with
      | error e => rw [ht, exceptBind_err] at h; cases h
      | ok batch =>
        rw [ht, exceptBind_ok] at h
        cases h
        have hcnt := buildArrays_ok_count seg offset limit names arrs1 cnt hb
        obtain ⟨hlens, hall⟩ :=
          buildArrays_ok_lengths seg offset limit hol hread names arrs1 cnt hb
        refine ⟨?_, hcnt⟩
        unfold tryNewBatch at ht
        cases harr : arrs1 with
        | nil => rw [harr] at ht; cases ht
        | cons a rest =>
          rw [harr] at ht
          dsimp only at ht
          by_cases hallb : rest.all (fun r => r.length = a.length)
          · rw [if_pos hallb] at ht
            cases ht
            exact hall a (by rw [harr]; simp)
          · rw [if_neg hallb] at ht; cases ht
  intro b cnt h
  unfold createBatchCounted at h
  cases proj with
  | none =>
    dsimp only at h
    rw [exceptBind_ok] at h
    by_cases hne : seg.colNames = []
    · rw [if_pos hne] at h
      cases h
      refine ⟨rfl, by simp [hne], fun hc => by cases hc⟩
    · rw [if_neg hne] at h
      obtain ⟨hrow, hcnt⟩ := hnonempty seg.colNames b cnt hne h
      exact ⟨hrow, hcnt, fun hc => by cases hc⟩
  | some p =>
    dsimp only at h
    cases hmm : p.mapM (fun idx =>
        match seg.colNames[idx]? with
        | some n => Except.ok n
        | none => Except.error (DfErr.internal ("panic: projection index out of range"))) with
    | error e => rw [hmm, exceptBind_err] at h; cases h
    | ok names =>
      rw [hmm, exceptBind_ok] at h
      have hnlen : names.length = p.length := mapM_ok_length _ p names hmm
      by_cases hne : names = []
      · rw [if_pos hne] at h
        cases h
        refine ⟨rfl, ?_, fun _ => rfl⟩
        show 0 = p.length
        rw [← hnlen, hne]
        rfl
      · rw [if_neg hne] at h
        obtain ⟨hrow, hcnt⟩ := hnonempty names b cnt hne h
        have hpe : ¬ p = [] := by
          intro hc
          rw [hc] at hmm
          cases hmm
          exact hne rfl
        refine ⟨hrow, ?_, fun hc => by cases hc; exact (hpe rfl).elim⟩
        show cnt = p.length
        rw [hcnt, hnlen]

theorem execBatches_ok_spec (seg : ExecSegment) (proj : Option (List Nat))
    (hread : ∀ name v, seg.readCol name = Except.ok v → v.length = seg.totalDocs) :
    ∀ (k start : Nat),
      (seg.totalDocs - start + (BATCH_SIZE - 1)) / BATCH_SIZE = k →
      start ≤ seg.totalDocs →
      ∀ (batches : List RecordBatch) (cnt : Nat),
        execBatches seg proj (stepOffsets k start) = Except.ok (batches, cnt) →
        (batches.map (fun b => b.rowCount)).sum = seg.totalDocs - start
        ∧ cnt = k * (match proj with
            | some p => p.length
            | none => seg.colNames.length)
        ∧ (∀ b ∈ batches, b.rowCount ≤ BATCH_SIZE)
        ∧ (proj = some [] → ∀ b ∈ batches, b.columns = []) := by
  intro k
  induction k with
  | zero =>
    intro start hk hs batches cnt h
    rw [show stepOffsets 0 start = [] from rfl, execBatches] at h
    cases h
    simp only [BATCH_SIZE] at hk
    have h0 : seg.totalDocs - start = 0 := by omega
    refine ⟨by simp [h0], by simp, by simp, fun _ => by simp⟩
  | succ k ih =>
    intro start hk hs batches cnt h
    rw [show stepOffsets (k + 1) start = start :: stepOffsets k (start + BATCH_SIZE) from rfl,
      execBatches] at h
    cases hc : createBatchCounted seg proj start (min BATCH_SIZE (seg.totalDocs - start)) with
    | error e => rw [hc, exceptBind_err] at h; cases h
    | ok pr =>
      obtain ⟨b1, c1⟩ := pr
      rw [hc, exceptBind_ok] at h
      dsimp only at h
      cases hr : execBatches seg proj (stepOffsets k (start + BATCH_SIZE)) with
      | error e => rw [hr, exceptBind_err] at h; cases h
      | ok pr2 =>
        obtain ⟨bs2, cs2⟩ := pr2
        rw [hr, exceptBind_ok] at h
        dsimp only at h
        cases h
        have hk8 : (seg.totalDocs - start + (8192 - 1)) / 8192 = k + 1 := hk
        have hslt : start < seg.totalDocs := by omega
        have hlim : min BATCH_SIZE (seg.totalDocs - start) = min 8192 (seg.totalDocs - start) :=
          rfl
        obtain ⟨hrow, hcnt, hcols⟩ :=
          createBatchCounted_ok_spec seg proj start (min BATCH_SIZE (seg.totalDocs - start))
            (by rw [hlim]; omega) hread b1 c1 (by rw [hc])
        rcases Nat.lt_or_ge seg.totalDocs (start + 8192) with hsb | hsb
        case _ => ?_
        rotate_left
        · have hnext : (seg.totalDocs - (start + BATCH_SIZE) + (BATCH_SIZE - 1)) / BATCH_SIZE
              = k := by
            show (seg.totalDocs - (start + 8192) + (8192 - 1)) / 8192 = k
            omega
          obtain ⟨hsum, hcnt2, hle2, hcols2⟩ := ih (start + BATCH_SIZE) hnext
            (by show start + 8192 ≤ seg.totalDocs; omega) bs2 cs2 hr
          refine ⟨?_, ?_, ?_, ?_⟩
          · rw [List.map_cons, List.sum_cons, hrow, hsum, hlim]
            have hb2 : start + BATCH_SIZE = start + 8192 := rfl
            rw [hb2]
            omega
          · rw [hcnt2, hcnt]
            ring
          · intro b hb
            rcases List.mem_cons.mp hb with hb | hb
            · rw [hb, hrow, hlim]
              show min 8192 (seg.totalDocs - start) ≤ 8192
              omega
            · exact hle2 b hb
          · intro hp b hb
            rcases List.mem_cons.mp hb with hb | hb
            · rw [hb]; exact hcols hp
            · exact hcols2 hp b hb
        · have hk0 : k = 0 := by omega
          subst hk0
          rw [show stepOffsets 0 (start + BATCH_SIZE) = [] from rfl, execBatches] at hr
          cases hr
          refine ⟨?_, ?_, ?_, ?_⟩
          · rw [List.map_cons, List.sum_cons, hrow, hlim, List.map_nil, List.sum_nil]
            omega
          · rw [hcnt]
            ring
          · intro b hb
            rcases List.mem_cons.mp hb with hb | hb
            · rw [hb, hrow, hlim]
              show min 8192 (seg.totalDocs - start) ≤ 8192
              omega
            · cases hb
          · intro hp b hb
            rcases List.mem_cons.mp hb with hb | hb
            · rw [hb]; exact hcols hp
            · cases hb


theorem createBatchCounted_ok_count (seg : ExecSegment) (proj : Option (List Nat))
    (offset limit : Nat) :
    ∀ (b : RecordBatch) (cnt : Nat),
      createBatchCounted seg proj offset limit = Except.ok (b, cnt) →
      cnt = (match proj with
          | some p => p.length
          | none => seg.colNames.length) := by
  have hnonempty : ∀ (names : List (List Char)) (b : RecordBatch) (cnt : Nat),
      ((buildArrays seg offset limit names >>= fun pr =>
          (match pr with
          | (arrs, cnt) => tryNewBatch arrs >>= fun batch => Except.ok (batch, cnt)))
        = Except.ok (b, cnt)) →
      cnt = names.length := by
    intro names b cnt h
    cases hb : buildArrays seg offset limit names with
    | error e => rw [hb, exceptBind_err] at h; cases h
    | ok pr =>
      obtain ⟨arrs1, cnt1⟩ := pr
      rw [hb, exceptBind_ok] at h
      dsimp only at h
      cases ht : tryNewBatch arrs1 with
      | error e => rw [ht, exceptBind_err] at h; cases h
      | ok batch =>
        rw [ht, exceptBind_ok] at h
        cases h
        exact buildArrays_ok_count seg offset limit names arrs1 cnt hb
  intro b cnt h
  unfold createBatchCounted at h
  cases proj with
  | none =>
    dsimp only at h
    rw [exceptBind_ok] at h
    by_cases hne : seg.colNames = []
    · rw [if_pos hne] at h
      cases h
      simp [hne]
    · rw [if_neg hne] at h
      exact hnonempty seg.colNames b cnt h
  | some p =>
    dsimp only at h
    cases hmm : p.mapM (fun idx =>
        match seg.colNames[idx]? with
        | some n => Except.ok n
        | none => Except.error (DfErr.internal ("panic: projection index out of range"))) with
    | error e => rw [hmm, exceptBind_err] at h; cases h
    | ok names =>
      rw [hmm, exceptBind_ok] at h
      have hnlen : names.length = p.length := mapM_ok_length _ p names hmm
      by_cases hne : names = []
      · rw [if_pos hne] at h
        cases h
        show 0 = p.length
        rw [← hnlen, hne]
        rfl
      · rw [if_neg hne] at h
        have := hnonempty names b cnt h
        show cnt = p.length
        rw [this, hnlen]

theorem execBatches_ok_count (seg : ExecSegment) (proj : Option (List Nat)) :
    ∀ (offs : List Nat) (batches : List RecordBatch) (cnt : Nat),
      execBatches seg proj offs = Except.ok (batches, cnt) →
      cnt = offs.length * (match proj with
          | some p => p.length
          | none => seg.colNames.length) := by
  intro offs
  induction offs with
  | nil =>
    intro batches cnt h
    cases h
    simp
  | cons off rest ih =>
    intro batches cnt h
    rw [execBatches] at h
    cases hc : createBatchCounted seg proj off (min BATCH_SIZE (seg.totalDocs - off)) with
    | error e => rw [hc, exceptBind_err] at h; cases h
    | ok pr =>
      obtain ⟨b1, c1⟩ := pr
      rw [hc, exceptBind_ok] at h
      dsimp only at h
      cases hr : execBatches seg proj rest with
      | error e => rw [hr, exceptBind_err] at h; cases h
      | ok pr2 =>
        obtain ⟨bs2, cs2⟩ := pr2
        rw [hr, exceptBind_ok] at h
        dsimp only at h
        cases h
        have h1 := createBatchCounted_ok_count seg proj off
          (min BATCH_SIZE (seg.totalDocs - off)) b1 c1 hc
        have h2 := ih bs2 cs2 hr
        rw [h1, h2, List.length_cons]
        ring

/-- C3: during one partition scan, `PinotExec::execute` calls the per-column
segment readers once per (batch, projected column) pair — the number of
column reads is the batch count times the projected column count, not "at
most once per column per scan"; a segment of 8193 docs is split into 2
batches, so each projected column is read twice. -/
theorem C3_exec_reads_per_batch :
    (∀ (seg : ExecSegment) (proj : Option (List Nat)) (batches : List RecordBatch)
      (cnt : Nat),
      executeCounted seg proj = Except.ok (batches, cnt) →
      cnt = (batchStarts seg.totalDocs).length
        * (match proj with
           | some p => p.length
           | none => seg.colNames.length))
    ∧ (batchStarts 8193).length = 2 := by
  constructor
  · intro seg proj batches cnt h
    exact execBatches_ok_count seg proj (batchStarts seg.totalDocs) batches cnt h
  · decide

/-- Witness for C3: a 3-doc segment with one projected column is scanned in
one batch with exactly one column read. -/
theorem C3_exec_reads_per_batch_witness :
    (1 : Nat) = (batchStarts (3 : Nat)).length
      * (match (some [0] : Option (List Nat)) with
         | some p => p.length
         | none => ([['a']] : List (List Char)).length) :=
  C3_exec_reads_per_batch.1 ⟨3, [['a']], (fun _ => some DataType.int),
      (fun _ => Except.ok [5, 6, 7])⟩ (some [0]) [⟨[[5, 6, 7]], 3⟩] 1 (by decide)

/-- C4: for every segment whose column reads return `total_docs` values, a
successful partition scan emits batches whose row counts sum to exactly
`total_docs`, every batch has at most `BATCH_SIZE = 8192` rows, and with an
empty projection every batch has 0 columns while the row counts still sum
to `total_docs`. -/
theorem C4_batch_row_counts :
    ∀ (seg : ExecSegment) (proj : Option (List Nat)) (batches : List RecordBatch),
      (∀ name v, seg.readCol name = Except.ok v → v.length = seg.totalDocs) →
      executePartition seg proj = Except.ok batches →
      (batches.map (fun b => b.rowCount)).sum = seg.totalDocs
      ∧ (∀ b ∈ batches, b.rowCount ≤ 8192)
      ∧ (proj = some [] → ∀ b ∈ batches, b.columns = []) := by
  intro seg proj batches hread hexec
  unfold executePartition executeCounted at hexec
  cases he : execBatches seg proj (batchStarts seg.totalDocs) with
  | error e => rw [he] at hexec; cases hexec
  | ok pr =>
    obtain ⟨bs, cnt⟩ := pr
    rw [he] at hexec
    have hexec2 : bs = batches := by
      cases hexec
      rfl
    subst hexec2
    have hk : (seg.totalDocs - 0 + (BATCH_SIZE - 1)) / BATCH_SIZE
        = (seg.totalDocs + (BATCH_SIZE - 1)) / BATCH_SIZE := by
      rw [Nat.sub_zero]
    obtain ⟨hsum, hcnt, hle, hcols⟩ := execBatches_ok_spec seg proj hread
      ((seg.totalDocs + (BATCH_SIZE - 1)) / BATCH_SIZE) 0 hk (Nat.zero_le _) bs cnt he
    refine ⟨?_, ?_, hcols⟩
    · rw [hsum, Nat.sub_zero]
    · intro b hb
      exact hle b hb

/-- Witness for C4: a 3-doc, one-column segment scans into a single batch of
3 rows. -/
theorem C4_batch_row_counts_witness :
    (([(⟨[[5, 6, 7]], 3⟩ : RecordBatch)]).map (fun b => b.rowCount)).sum = (3 : Nat) :=
  (C4_batch_row_counts ⟨3, [['a']], (fun _ => some DataType.int),
      (fun _ => Except.ok [5, 6, 7])⟩ none [⟨[[5, 6, 7]], 3⟩]
    (fun name v h => by cases h; rfl) (by decide)).1

/-! ### Var-byte bulk/per-doc equivalence lemmas -/

theorem docStartOf_mono (r : VarByteChunkReader) (dec : Nat → List Nat) :
    ∀ k j, j ≤ k → docStartOf r dec j ≤ docStartOf r dec k := by
  intro k
  induction k with
  | zero =>
    intro j h
    have hj : j = 0 := Nat.le_zero.mp h
    subst hj
    exact Nat.le_refl _
  | succ k ih =>
    intro j h
    rcases Nat.eq_or_lt_of_le h with he | hl
    · subst he
      exact Nat.le_refl _
    · exact Nat.le_trans (ih j (Nat.lt_succ_iff.mp hl)) (Nat.le_add_right _ _)

theorem readBytesAt_entry (r : VarByteChunkReader) (n : Nat)
    (hm : r.metadataOffset + n * 8 ≤ r.file.length) (k : Nat) (hk : k < n) :
    readBytesAt r.file (r.metadataOffset + k * 8) 8 = Except.ok (entryBytesOf r k) := by
  have hb : (k + 1) * 8 ≤ n * 8 := Nat.mul_le_mul_right _ hk
  rw [readBytesAt, if_pos (by omega)]
  rfl

theorem chunkValsOf_length (r : VarByteChunkReader) (dec : Nat → List Nat)
    (utf8Lossy : List Nat → List Char) (k : Nat) :
    (chunkValsOf r dec utf8Lossy k).length = docCountOf r dec k := by
  simp [chunkValsOf]

theorem flatValsFrom_length (r : VarByteChunkReader) (dec : Nat → List Nat)
    (utf8Lossy : List Nat → List Char) :
    ∀ m j, docStartOf r dec j + (flatValsFrom r dec utf8Lossy j m).length
      = docStartOf r dec (j + m) := by
  intro m
  induction m with
  | zero => intro j; simp [flatValsFrom]
  | succ m ih =>
    intro j
    have hidx : j + (m + 1) = (j + 1) + m := by omega
    rw [hidx, ← ih (j + 1), flatValsFrom]
    have : docStartOf r dec (j + 1) = docStartOf r dec j + docCountOf r dec j := rfl
    rw [this, List.length_append, chunkValsOf_length]
    omega

theorem chunkValsOf_getD (r : VarByteChunkReader) (dec : Nat → List Nat)
    (utf8Lossy : List Nat → List Char) (k t : Nat) (ht : t < docCountOf r dec k) :
    (chunkValsOf r dec utf8Lossy k).getD t [] = utf8Lossy (docValueOf r dec k t) := by
  have hlen : t < (chunkValsOf r dec utf8Lossy k).length := by
    rw [chunkValsOf_length]; exact ht
  rw [List.getD_eq_getElem _ _ hlen]
  simp [chunkValsOf]

theorem flatValsFrom_getD (r : VarByteChunkReader) (dec : Nat → List Nat)
    (utf8Lossy : List Nat → List Char) :
    ∀ m j k i, j ≤ k → k < j + m → docStartOf r dec k ≤ i → i < docStartOf r dec (k + 1) →
      (flatValsFrom r dec utf8Lossy j m).getD (i - docStartOf r dec j) [] =
        utf8Lossy (docValueOf r dec k (i - docStartOf r dec k)) := by
  intro m
  induction m with
  | zero => intro j k i h1 h2 _ _; omega
  | succ m ih =>
    intro j k i h1 h2 h3 h4
    rw [flatValsFrom]
    rcases Nat.eq_or_lt_of_le h1 with he | hl
    · subst he
      have hsucc : docStartOf r dec (j + 1) = docStartOf r dec j + docCountOf r dec j := rfl
      have hidx : i - docStartOf r dec j < (chunkValsOf r dec utf8Lossy j).length := by
        rw [chunkValsOf_length]; omega
      rw [List.getD_append _ _ _ _ hidx]
      exact chunkValsOf_getD r dec utf8Lossy j (i - docStartOf r dec j) (by
        rw [hsucc] at h4; omega)
    · have hmono : docStartOf r dec (j + 1) ≤ docStartOf r dec k :=
        docStartOf_mono r dec k (j + 1) hl
      have hsucc : docStartOf r dec (j + 1) = docStartOf r dec j + docCountOf r dec j := rfl
      have hge : (chunkValsOf r dec utf8Lossy j).length ≤ i - docStartOf r dec j := by
        rw [chunkValsOf_length]; omega
      rw [List.getD_append_right _ _ _ _ hge]
      have harith : i - docStartOf r dec j - (chunkValsOf r dec utf8Lossy j).length
          = i - docStartOf r dec (j + 1) := by
        rw [chunkValsOf_length, hsucc]; omega
      rw [harith]
      exact ih (j + 1) k i hl (by omega) h3 h4

theorem extractLoop_ok (r : VarByteChunkReader) (dec : Nat → List Nat)
    (utf8Lossy : List Nat → List Char) (k : Nat)
    (hreg : ¬ entryHugeOf r k)
    (hlen : 4 + docCountOf r dec k * 4 ≤ (dec k).length)
    (hoff : ∀ i, i < docCountOf r dec k → valOffOf dec k i ≤ (dec k).length)
    (hend : ∀ i, i < docCountOf r dec k → valOffOf dec k i ≤ valEndOf r dec k i) :
    ∀ m j, j + m = docCountOf r dec k →
      extractLoop utf8Lossy (dec k) (docCountOf r dec k) m j =
        Except.ok ((List.range' j m).map (fun i => utf8Lossy (docValueOf r dec k i))) := by
  intro m
  induction m with
  | zero => intro j _; rfl
  | succ m ih =>
    intro j hj
    have hjlt : j < docCountOf r dec k := by omega
    have hb1 : 4 + j * 4 + 4 ≤ (dec k).length := by
      have h4 : (j + 1) * 4 ≤ docCountOf r dec k * 4 := Nat.mul_le_mul_right _ hjlt
      omega
    rw [extractLoop]
    rw [show idx4LE (dec k) (4 + j * 4) = Except.ok (valOffOf dec k j) from by
      rw [idx4LE, if_pos (by omega)]; rfl]
    rw [exceptBind_ok]
    dsimp only
    have ho := hoff j hjlt
    have hcnt1 : 1 ≤ docCountOf r dec k := by omega
    by_cases hlast : j = docCountOf r dec k - 1
    · rw [if_pos hlast, exceptBind_ok, if_neg (by omega), if_neg (by omega),
        ih (j + 1) (by omega), exceptBind_ok]
      have hdv : docValueOf r dec k j
          = List.take ((dec k).length - valOffOf dec k j)
              (List.drop (valOffOf dec k j) (dec k)) := by
        rw [docValueOf, if_neg hreg, valBytesOf, valEndOf, if_pos hlast]
      rw [List.range'_succ, List.map_cons, hdv]
    · have hj1 : j + 1 < docCountOf r dec k := by omega
      have haddr : 4 + j * 4 + 4 = 4 + (j + 1) * 4 := by ring
      have hb2 : 4 + (j + 1) * 4 + 4 ≤ (dec k).length := by
        have h4 : (j + 2) * 4 ≤ docCountOf r dec k * 4 := Nat.mul_le_mul_right _ hj1
        omega
      rw [if_neg hlast,
        show idx4LE (dec k) (4 + j * 4 + 4) = Except.ok (valOffOf dec k (j + 1)) from by
          rw [haddr, idx4LE, if_pos (by omega)]; rfl,
        exceptBind_ok]
      have ho1 := hoff (j + 1) hj1
      have he : valEndOf r dec k j = valOffOf dec k (j + 1) := by
        rw [valEndOf, if_neg hlast]
      have h5 := hend j hjlt
      rw [he] at h5
      rw [if_neg (by omega), if_neg (by omega), ih (j + 1) (by omega), exceptBind_ok]
      have hdv : docValueOf r dec k j
          = List.take (valOffOf dec k (j + 1) - valOffOf dec k j)
              (List.drop (valOffOf dec k j) (dec k)) := by
        rw [docValueOf, if_neg hreg, valBytesOf, he]
      rw [List.range'_succ, List.map_cons, hdv]


theorem chunkTail_ok (utf8Lossy : List Nat → List Char) (r : VarByteChunkReader)
    (dec : Nat → List Nat) (n k : Nat) (hk : k < n)
    (h9 : ∀ k, k < n → ¬ entryHugeOf r k →
      8 ≤ (dec k).length
      ∧ 4 + docCountOf r dec k * 4 ≤ (dec k).length
      ∧ (∀ i, i < docCountOf r dec k → valOffOf dec k i ≤ (dec k).length)
      ∧ (∀ i, i < docCountOf r dec k → valOffOf dec k i ≤ valEndOf r dec k i))
    (c : Nat) :
    (if leVal ((entryBytesOf r k).take 4) < 2 ^ 31 then
       if (dec k).length < 8 then
         Except.error (Err.invalidFormat ("Decompressed chunk too small"))
       else do
         let vals ← extractLoop utf8Lossy (dec k) (leVal ((dec k).take 4))
           (leVal ((dec k).take 4)) 0
         Except.ok (vals, c)
     else Except.ok ([utf8Lossy (dec k)], c))
    = Except.ok (chunkValsOf r dec utf8Lossy k, c) := by
  by_cases hhuge : entryHugeOf r k
  · have hhuge' : 2 ^ 31 ≤ leVal ((entryBytesOf r k).take 4) := hhuge
    rw [if_neg (Nat.not_lt.mpr hhuge')]
    have hone : chunkValsOf r dec utf8Lossy k = [utf8Lossy (dec k)] := by
      simp [chunkValsOf, docCountOf, docValueOf, hhuge]
    rw [hone]
  · have hlt : leVal ((entryBytesOf r k).take 4) < 2 ^ 31 :=
      Nat.not_le.mp (fun h => hhuge h)
    obtain ⟨h91, h92, h93, h95⟩ := h9 k hk hhuge
    rw [if_pos hlt, if_neg (by omega)]
    have hdc : leVal ((dec k).take 4) = docCountOf r dec k := by
      rw [docCountOf, if_neg hhuge]
    rw [hdc,
      extractLoop_ok r dec utf8Lossy k hhuge h92 h93 h95 (docCountOf r dec k) 0 (by omega),
      exceptBind_ok]
    simp [chunkValsOf, List.range_eq_range']

theorem chunkStringsAtCounted_ok
    (lz4Block : List Nat → Nat → Option (List Nat)) (utf8Lossy : List Nat → List Char)
    (r : VarByteChunkReader) (dec : Nat → List Nat) (n : Nat)
    (hwf : WellFormedV4 lz4Block r dec n) (k : Nat) (hk : k < n) :
    chunkStringsAtCounted lz4Block utf8Lossy r k =
      Except.ok (chunkValsOf r dec utf8Lossy k,
        if r.compressionType = 0 then 0 else 1) := by
  obtain ⟨h1, h2, h3, h4, h5, h6, h7, h8, h9⟩ := hwf
  have h5k := h5 k hk
  have hread : readBytesAt r.file (r.chunksOffset + entryChunkOffOf r k)
      (chunkLimitOf r k - entryChunkOffOf r k) = Except.ok (chunkRawOf r k) := by
    rw [readBytesAt, if_pos (h4 k hk)]; rfl
  have hco : leVal (List.take 4 (List.drop 4 (entryBytesOf r k))) = entryChunkOffOf r k := rfl
  rw [chunkStringsAtCounted, readBytesAt_entry r n h2 k hk, exceptBind_ok]
  dsimp only
  by_cases hnl : (k + 1) * 8 < r.metadataSize
  · have hk1 : k + 1 < n := by rw [h1] at hnl; omega
    have haddr : r.metadataOffset + k * 8 + 8 = r.metadataOffset + (k + 1) * 8 := by ring
    have hsent : ¬ (leVal (List.take 4 (List.drop 4 (entryBytesOf r (k + 1)))) = 4294967295) :=
      h3 (k + 1) hk1
    rw [if_pos hnl, haddr, readBytesAt_entry r n h2 (k + 1) hk1, exceptBind_ok,
      if_neg hsent, exceptBind_ok]
    have hcl : leVal (List.take 4 (List.drop 4 (entryBytesOf r (k + 1)))) = chunkLimitOf r k := by
      rw [chunkLimitOf, if_pos hnl]; rfl
    rw [hcl, hco, hread, exceptBind_ok]
    by_cases hc : r.compressionType = 0
    · rw [if_pos hc] at h5k
      have hraw : chunkRawOf r k = dec k := Except.ok.inj h5k
      rw [if_pos hc, exceptBind_ok, hraw]
      dsimp only
      rw [if_pos hc]
      exact chunkTail_ok utf8Lossy r dec n k hk h9 0
    · rw [if_neg hc] at h5k
      rw [if_neg hc, h5k, exceptBind_ok, exceptBind_ok]
      dsimp only
      rw [if_neg hc]
      exact chunkTail_ok utf8Lossy r dec n k hk h9 1
  · rw [if_neg hnl, exceptBind_ok]
    have hcl : r.forwardIndexSize - (r.chunksOffset - r.baseOffset) = chunkLimitOf r k := by
      rw [chunkLimitOf, if_neg hnl]
    rw [hcl, hco, hread, exceptBind_ok]
    by_cases hc : r.compressionType = 0
    · rw [if_pos hc] at h5k
      have hraw : chunkRawOf r k = dec k := Except.ok.inj h5k
      rw [if_pos hc, exceptBind_ok, hraw]
      dsimp only
      rw [if_pos hc]
      exact chunkTail_ok utf8Lossy r dec n k hk h9 0
    · rw [if_neg hc] at h5k
      rw [if_neg hc, h5k, exceptBind_ok, exceptBind_ok]
      dsimp only
      rw [if_neg hc]
      exact chunkTail_ok utf8Lossy r dec n k hk h9 1


theorem chunkLoopCounted_ok
    (lz4Block : List Nat → Nat → Option (List Nat)) (utf8Lossy : List Nat → List Char)
    (r : VarByteChunkReader) (dec : Nat → List Nat) (n : Nat)
    (hwf : WellFormedV4 lz4Block r dec n) :
    ∀ m j, j + m ≤ n →
      chunkLoopCounted lz4Block utf8Lossy r m j =
        Except.ok (flatValsFrom r dec utf8Lossy j m,
          if r.compressionType = 0 then 0 else m) := by
  intro m
  induction m with
  | zero =>
    intro j _
    by_cases hc : r.compressionType = 0 <;> simp [chunkLoopCounted, flatValsFrom, hc]
  | succ m ih =>
    intro j hj
    rw [chunkLoopCounted,
      chunkStringsAtCounted_ok lz4Block utf8Lossy r dec n hwf j (by omega), exceptBind_ok,
      ih (j + 1) (by omega), exceptBind_ok]
    dsimp only
    rw [flatValsFrom]
    by_cases hc : r.compressionType = 0
    · simp [hc]
    · simp [hc]
      omega

theorem readAllStringsChunkedCounted_ok
    (lz4Block : List Nat → Nat → Option (List Nat)) (utf8Lossy : List Nat → List Char)
    (r : VarByteChunkReader) (dec : Nat → List Nat) (n : Nat)
    (hwf : WellFormedV4 lz4Block r dec n) :
    readAllStringsChunkedCounted lz4Block utf8Lossy r =
      Except.ok (flatValsFrom r dec utf8Lossy 0 n,
        if r.compressionType = 0 then 0 else n) := by
  have h1 := hwf.1
  rw [readAllStringsChunkedCounted, h1, Nat.mul_div_cancel _ (by omega : (0:Nat) < 8)]
  exact chunkLoopCounted_ok lz4Block utf8Lossy r dec n hwf n 0 (by omega)


theorem findChunkLoop_spec (r : VarByteChunkReader) (dec : Nat → List Nat) (n : Nat)
    (hm : r.metadataOffset + n * 8 ≤ r.file.length)
    (hdid : ∀ k, k < n → entryDocIdOf r k = docStartOf r dec k)
    (hcnt : ∀ k, k < n → 1 ≤ docCountOf r dec k)
    (docId : Nat) (hdoc : docId < docStartOf r dec n) :
    ∀ (meas low : Nat) (high : Int), (high + 1 - (low : Int)).toNat ≤ meas →
      low ≤ n → high ≤ (n : Int) - 1 →
      (∀ j, j < n → j < low → docStartOf r dec j ≤ docId) →
      (∀ j, j < n → high < (j : Int) → docId < docStartOf r dec j) →
      ∃ k, findChunkLoop r docId low high = Except.ok (k * 8, k)
        ∧ k < n ∧ docStartOf r dec k ≤ docId ∧ docId < docStartOf r dec (k + 1) := by
  have hn : 1 ≤ n := by
    by_contra hn0
    have hz : n = 0 := by omega
    subst hz
    have h0 : docStartOf r dec 0 = 0 := rfl
    omega
  have hexit : ∀ (low : Nat) (high : Int), ¬ ((low : Int) ≤ high) → low ≤ n →
      (∀ j, j < n → j < low → docStartOf r dec j ≤ docId) →
      (∀ j, j < n → high < (j : Int) → docId < docStartOf r dec j) →
      ∃ k, findChunkLoop r docId low high = Except.ok (k * 8, k)
        ∧ k < n ∧ docStartOf r dec k ≤ docId ∧ docId < docStartOf r dec (k + 1) := by
    intro low high hlh hln hI1 hI2
    have hlow1 : 1 ≤ low := by
      by_contra h0
      have hl0 : low = 0 := by omega
      subst hl0
      have h2 := hI2 0 hn (by omega)
      have h3 : docStartOf r dec 0 = 0 := rfl
      omega
    have ht : ((low : Int) - 1).toNat = low - 1 := by omega
    refine ⟨low - 1, ?_, by omega, hI1 (low - 1) (by omega) (by omega), ?_⟩
    · rw [findChunkLoop.eq_def, dif_neg hlh, ht]
    · rcases Nat.lt_or_ge (low - 1 + 1) n with hlt | hge
      · exact hI2 (low - 1 + 1) hlt (by omega)
      · have heqn : low - 1 + 1 = n := by omega
        rw [heqn]
        exact hdoc
  intro meas
  induction meas with
  | zero =>
    intro low high hmeas hln _ hI1 hI2
    exact hexit low high (by omega) hln hI1 hI2
  | succ meas ih =>
    intro low high hmeas hln hhn hI1 hI2
    by_cases hlh : (low : Int) ≤ high
    · rw [findChunkLoop.eq_def, dif_pos hlh]
      dsimp only
      have hmid1 : low ≤ ((low : Int) + high).toNat / 2 := by
        have h2 : ((low : Int) + high).toNat = low + high.toNat := by omega
        have h3 : (high.toNat : Int) = high := by omega
        omega
      have hmid2 : ((((low : Int) + high).toNat / 2 : Nat) : Int) ≤ high := by
        have h2 : ((low : Int) + high).toNat = low + high.toNat := by omega
        have h3 : (high.toNat : Int) = high := by omega
        omega
      set mid := ((low : Int) + high).toNat / 2 with hmiddef
      have hmidn : mid < n := by omega
      rw [readBytesAt_entry r n hm mid hmidn]
      dsimp only
      have hdd : leVal ((entryBytesOf r mid).take 4) % 2 ^ 31 = docStartOf r dec mid :=
        hdid mid hmidn
      rcases Nat.lt_trichotomy (docStartOf r dec mid) docId with hltc | heqc | hgtc
      · rw [if_pos (show leVal ((entryBytesOf r mid).take 4) % 2 ^ 31 < docId from by
          rw [hdd]; exact hltc)]
        exact ih (mid + 1) high (by omega) (by omega) hhn
          (fun j hj hjlt => Nat.le_trans
            (docStartOf_mono r dec mid j (by omega)) (Nat.le_of_lt hltc))
          hI2
      · rw [if_neg (show ¬ (leVal ((entryBytesOf r mid).take 4) % 2 ^ 31 < docId) from by
          rw [hdd]; omega),
          if_neg (show ¬ (docId < leVal ((entryBytesOf r mid).take 4) % 2 ^ 31) from by
          rw [hdd]; omega)]
        have hsucc : docStartOf r dec (mid + 1)
            = docStartOf r dec mid + docCountOf r dec mid := rfl
        have hc1 := hcnt mid hmidn
        exact ⟨mid, rfl, hmidn, by omega, by omega⟩
      · rw [if_neg (show ¬ (leVal ((entryBytesOf r mid).take 4) % 2 ^ 31 < docId) from by
          rw [hdd]; omega),
          if_pos (show docId < leVal ((entryBytesOf r mid).take 4) % 2 ^ 31 from by
          rw [hdd]; exact hgtc)]
        exact ih low ((mid : Int) - 1) (by omega) hln (by omega) hI1
          (fun j hj hjgt => Nat.lt_of_lt_of_le hgtc
            (docStartOf_mono r dec j mid (by omega)))
    · exact hexit low high hlh hln hI1 hI2


theorem findChunkMetadata_spec
    (lz4Block : List Nat → Nat → Option (List Nat))
    (r : VarByteChunkReader) (dec : Nat → List Nat) (n : Nat)
    (hwf : WellFormedV4 lz4Block r dec n) (docId : Nat)
    (hdoc : docId < docStartOf r dec n) :
    ∃ k, findChunkMetadata r docId = Except.ok (k * 8, k)
      ∧ k < n ∧ docStartOf r dec k ≤ docId ∧ docId < docStartOf r dec (k + 1) := by
  obtain ⟨h1, h2, h3, h4, h5, h6, h7, h8, h9⟩ := hwf
  have hdid : ∀ k, k < n → leVal ((entryBytesOf r k).take 4) % 2 ^ 31 = docStartOf r dec k := h6
  have hne : r.metadataSize / 8 = n := by rw [h1]; exact Nat.mul_div_cancel _ (by omega)
  rw [findChunkMetadata, hne]
  exact findChunkLoop_spec r dec n h2 hdid h8 docId hdoc
    ((n : Int) - 1 + 1 - (0 : Nat)).toNat 0 ((n : Int) - 1)
    (by omega) (by omega) (by omega)
    (fun j _ hj0 => absurd hj0 (by omega))
    (fun j hj hgt => absurd hgt (by omega))


theorem ite_bind {ε α β : Type} (c : Prop) [Decidable c] (a b : Except ε α)
    (f : α → Except ε β) :
    (if c then a >>= f else b >>= f) = ((if c then a else b) >>= f) := by
  by_cases h : c
  · rw [if_pos h, if_pos h]
  · rw [if_neg h, if_neg h]

theorem getBytesTail_ok (r : VarByteChunkReader) (dec : Nat → List Nat) (n k i : Nat)
    (hk : k < n) (hreg : ¬ entryHugeOf r k)
    (h9 : ∀ k, k < n → ¬ entryHugeOf r k →
      8 ≤ (dec k).length
      ∧ 4 + docCountOf r dec k * 4 ≤ (dec k).length
      ∧ (∀ i, i < docCountOf r dec k → valOffOf dec k i ≤ (dec k).length)
      ∧ (∀ i, i < docCountOf r dec k → valOffOf dec k i ≤ valEndOf r dec k i))
    (hge : docStartOf r dec k ≤ i) (hlt : i < docStartOf r dec (k + 1)) :
    (if docCountOf r dec k ≤ i - docStartOf r dec k then
       Except.error (Err.invalidFormat ("doc_id not in chunk"))
     else
       if (dec k).length < 4 + (i - docStartOf r dec k) * 4 + 4 then
         Except.error (Err.invalidFormat ("Offset position out of range"))
       else do
         let nextOffset ←
           if i - docStartOf r dec k = docCountOf r dec k - 1 then
             Except.ok (dec k).length
           else
             if (dec k).length < 4 + (i - docStartOf r dec k) * 4 + 4 + 4 then
               Except.error (Err.invalidFormat ("Next offset position out of range"))
             else
               Except.ok (leVal (((dec k).drop (4 + (i - docStartOf r dec k) * 4 + 4)).take 4))
         if (dec k).length < leVal (((dec k).drop (4 + (i - docStartOf r dec k) * 4)).take 4)
             ∨ (dec k).length < nextOffset then
           Except.error (Err.invalidFormat ("Value offsets out of range"))
         else
           if nextOffset < leVal (((dec k).drop (4 + (i - docStartOf r dec k) * 4)).take 4) then
             Except.error (Err.invalidFormat ("panic: slice index starts at larger end"))
           else
             Except.ok (((dec k).drop
                 (leVal (((dec k).drop (4 + (i - docStartOf r dec k) * 4)).take 4))).take
               (nextOffset - leVal (((dec k).drop (4 + (i - docStartOf r dec k) * 4)).take 4))))
    = Except.ok (docValueOf r dec k (i - docStartOf r dec k)) := by
  obtain ⟨h91, h92, h93, h95⟩ := h9 k hk hreg
  have hsucc : docStartOf r dec (k + 1) = docStartOf r dec k + docCountOf r dec k := rfl
  have hidx : i - docStartOf r dec k < docCountOf r dec k := by omega
  have hvo : leVal (((dec k).drop (4 + (i - docStartOf r dec k) * 4)).take 4)
      = valOffOf dec k (i - docStartOf r dec k) := rfl
  have hb1 : 4 + (i - docStartOf r dec k) * 4 + 4 ≤ (dec k).length := by
    have hx : (i - docStartOf r dec k + 1) * 4 ≤ docCountOf r dec k * 4 :=
      Nat.mul_le_mul_right _ hidx
    omega
  have ho := h93 (i - docStartOf r dec k) hidx
  have he := h95 (i - docStartOf r dec k) hidx
  rw [if_neg (by omega), if_neg (by omega)]
  dsimp only
  rw [hvo]
  by_cases hlast : i - docStartOf r dec k = docCountOf r dec k - 1
  · have hend : valEndOf r dec k (i - docStartOf r dec k) = (dec k).length := by
      rw [valEndOf, if_pos hlast]
    rw [hend] at he
    rw [if_pos hlast, exceptBind_ok, if_neg (by omega), if_neg (by omega)]
    have hdv : docValueOf r dec k (i - docStartOf r dec k)
        = ((dec k).drop (valOffOf dec k (i - docStartOf r dec k))).take
            ((dec k).length - valOffOf dec k (i - docStartOf r dec k)) := by
      rw [docValueOf, if_neg hreg, valBytesOf, hend]
    rw [hdv]
  · have hidx1 : i - docStartOf r dec k + 1 < docCountOf r dec k := by omega
    have hb2 : 4 + (i - docStartOf r dec k + 1) * 4 + 4 ≤ (dec k).length := by
      have hx : (i - docStartOf r dec k + 2) * 4 ≤ docCountOf r dec k * 4 :=
        Nat.mul_le_mul_right _ hidx1
      omega
    have haddr : 4 + (i - docStartOf r dec k) * 4 + 4 = 4 + (i - docStartOf r dec k + 1) * 4 := by
      ring
    have hend : valEndOf r dec k (i - docStartOf r dec k)
        = valOffOf dec k (i - docStartOf r dec k + 1) := by
      rw [valEndOf, if_neg hlast]
    have ho1 := h93 (i - docStartOf r dec k + 1) hidx1
    rw [hend] at he
    rw [if_neg hlast, if_neg (by omega), haddr,
      show leVal (((dec k).drop (4 + (i - docStartOf r dec k + 1) * 4)).take 4)
        = valOffOf dec k (i - docStartOf r dec k + 1) from rfl,
      exceptBind_ok, if_neg (by omega), if_neg (by omega)]
    have hdv : docValueOf r dec k (i - docStartOf r dec k)
        = ((dec k).drop (valOffOf dec k (i - docStartOf r dec k))).take
            (valOffOf dec k (i - docStartOf r dec k + 1)
              - valOffOf dec k (i - docStartOf r dec k)) := by
      rw [docValueOf, if_neg hreg, valBytesOf, hend]
    rw [hdv]

theorem getBytes_spec
    (lz4Block : List Nat → Nat → Option (List Nat))
    (r : VarByteChunkReader) (dec : Nat → List Nat) (n : Nat)
    (hwf : WellFormedV4 lz4Block r dec n) (i : Nat) (hi : i < r.totalDocs) :
    ∃ k, k < n ∧ docStartOf r dec k ≤ i ∧ i < docStartOf r dec (k + 1)
      ∧ VarByteChunkReader.getBytes lz4Block r i
        = Except.ok (docValueOf r dec k (i - docStartOf r dec k)) := by
  have hdoc : i < docStartOf r dec n := by rw [← hwf.2.2.2.2.2.2.1]; exact hi
  obtain ⟨k, hfind, hk, hge, hlt⟩ := findChunkMetadata_spec lz4Block r dec n hwf i hdoc
  obtain ⟨h1, h2, h3, h4, h5, h6, h7, h8, h9⟩ := hwf
  refine ⟨k, hk, hge, hlt, ?_⟩
  have h5k := h5 k hk
  have hread : readBytesAt r.file (r.chunksOffset + entryChunkOffOf r k)
      (chunkLimitOf r k - entryChunkOffOf r k) = Except.ok (chunkRawOf r k) := by
    rw [readBytesAt, if_pos (h4 k hk)]; rfl
  have hco : leVal (List.take 4 (List.drop 4 (entryBytesOf r k))) = entryChunkOffOf r k := rfl
  have hdd1 : leVal (List.take 4 (entryBytesOf r k)) % 2 ^ 31 = docStartOf r dec k := h6 k hk
  have hcnt1 := h8 k hk
  have hsucc : docStartOf r dec (k + 1) = docStartOf r dec k + docCountOf r dec k := rfl
  rw [VarByteChunkReader.getBytes, hfind, exceptBind_ok]
  dsimp only
  rw [readBytesAt_entry r n h2 k hk, exceptBind_ok]
  by_cases hnl : (k + 1) * 8 < r.metadataSize
  · have hk1 : k + 1 < n := by rw [h1] at hnl; omega
    have haddr : r.metadataOffset + k * 8 + 8 = r.metadataOffset + (k + 1) * 8 := by ring
    have hsent : ¬ (leVal (List.take 4 (List.drop 4 (entryBytesOf r (k + 1)))) = 4294967295) :=
      h3 (k + 1) hk1
    have hdd2 : leVal (List.take 4 (entryBytesOf r (k + 1))) % 2 ^ 31
        = docStartOf r dec (k + 1) := h6 (k + 1) hk1
    have hcl : leVal (List.take 4 (List.drop 4 (entryBytesOf r (k + 1)))) = chunkLimitOf r k := by
      rw [chunkLimitOf, if_pos hnl]; rfl
    rw [if_pos hnl, haddr, readBytesAt_entry r n h2 (k + 1) hk1, exceptBind_ok,
      if_neg hsent, exceptBind_ok]
    dsimp only
    rw [hdd1, hdd2, hcl, hco, hread, exceptBind_ok, ite_bind, h5k, exceptBind_ok]
    by_cases hhuge : entryHugeOf r k
    · have hhuge' : 2 ^ 31 ≤ leVal ((entryBytesOf r k).take 4) := hhuge
      rw [if_neg (Nat.not_lt.mpr hhuge'), docValueOf, if_pos hhuge]
    · have hlt2 : leVal ((entryBytesOf r k).take 4) < 2 ^ 31 := Nat.not_le.mp (fun h => hhuge h)
      have hdcount : docStartOf r dec (k + 1) - docStartOf r dec k = docCountOf r dec k := by
        omega
      rw [if_pos hlt2, hdcount, if_neg (by omega : ¬ (docCountOf r dec k = 0)), exceptBind_ok]
      exact getBytesTail_ok r dec n k i hk hhuge h9 hge hlt
  · have hcl : r.forwardIndexSize - (r.chunksOffset - r.baseOffset) = chunkLimitOf r k := by
      rw [chunkLimitOf, if_neg hnl]
    rw [if_neg hnl, exceptBind_ok]
    dsimp only
    rw [hdd1, hcl, hco, hread, exceptBind_ok, ite_bind, h5k, exceptBind_ok]
    by_cases hhuge : entryHugeOf r k
    · have hhuge' : 2 ^ 31 ≤ leVal ((entryBytesOf r k).take 4) := hhuge
      rw [if_neg (Nat.not_lt.mpr hhuge'), docValueOf, if_pos hhuge]
    · have hlt2 : leVal ((entryBytesOf r k).take 4) < 2 ^ 31 := Nat.not_le.mp (fun h => hhuge h)
      obtain ⟨h91, h92, h93, h95⟩ := h9 k hk hhuge
      have hdcK : leVal (List.take 4 (dec k)) = docCountOf r dec k := by
        rw [docCountOf, if_neg hhuge]
      rw [if_pos hlt2, if_pos rfl, if_neg (by omega), hdcK, exceptBind_ok]
      exact getBytesTail_ok r dec n k i hk hhuge h9 hge hlt


theorem asciiDecode_lossy (bs : List Nat) (cs : List Char)
    (h : asciiDecode bs = some cs) : asciiLossy bs = cs := by
  rw [asciiDecode] at h
  by_cases hall : bs.all (fun b => b < 128)
  · rw [if_pos hall] at h
    cases h
    simp only [List.all_eq_true, decide_eq_true_eq] at hall
    rw [asciiLossy]
    induction bs with
    | nil => rfl
    | cons x xs ih =>
      rw [List.map_cons, List.map_cons, if_pos (hall x (by simp)),
        ih (fun y hy => hall y (by simp [hy]))]
  · rw [if_neg hall] at h
    cases h


/-- C2: for every well-formed V4 var-byte forward index (decompressed chunk
contents `dec`, `n` chunks, UTF-8-valid values), the bulk
`read_all_strings()` succeeds and returns exactly the per-document sequence
`[get_string(0), …, get_string(total_docs - 1)]` — same length, same
values, same order — and the bulk path invokes `decompress_chunk` at most
once per chunk (`cnt ≤ n`; it is 0 for PASS_THROUGH and exactly one per
chunk otherwise). -/
theorem C2_var_byte_bulk_equiv
    (lz4Block : List Nat → Nat → Option (List Nat))
    (utf8 : List Nat → Option (List Char)) (utf8Lossy : List Nat → List Char)
    (r : VarByteChunkReader) (dec : Nat → List Nat) (n : Nat)
    (hwf : WellFormedV4 lz4Block r dec n)
    (hcompat : ∀ bs cs, utf8 bs = some cs → utf8Lossy bs = cs)
    (hutf8 : ∀ k, k < n → ∀ i, i < docCountOf r dec k →
      (utf8 (docValueOf r dec k i)).isSome = true) :
    ∃ vs cnt,
      readAllStringsChunkedCounted lz4Block utf8Lossy r = Except.ok (vs, cnt)
      ∧ VarByteChunkReader.readAllStrings lz4Block utf8Lossy r = Except.ok vs
      ∧ vs.length = r.totalDocs
      ∧ (∀ i, i < r.totalDocs →
          VarByteChunkReader.getString lz4Block utf8 r i = Except.ok (vs.getD i []))
      ∧ cnt ≤ n := by
  have h7 := hwf.2.2.2.2.2.2.1
  refine ⟨flatValsFrom r dec utf8Lossy 0 n, if r.compressionType = 0 then 0 else n,
    readAllStringsChunkedCounted_ok lz4Block utf8Lossy r dec n hwf, ?_, ?_, ?_, ?_⟩
  · rw [VarByteChunkReader.readAllStrings,
      readAllStringsChunkedCounted_ok lz4Block utf8Lossy r dec n hwf]
    rfl
  · have hl := flatValsFrom_length r dec utf8Lossy n 0
    rw [Nat.zero_add] at hl
    have h0 : docStartOf r dec 0 = 0 := rfl
    omega
  · intro i hi
    obtain ⟨k, hk, hge, hlti, hbytes⟩ := getBytes_spec lz4Block r dec n hwf i hi
    have hsucc : docStartOf r dec (k + 1) = docStartOf r dec k + docCountOf r dec k := rfl
    have hidx : i - docStartOf r dec k < docCountOf r dec k := by omega
    have hsome := hutf8 k hk (i - docStartOf r dec k) hidx
    obtain ⟨cs, hcs⟩ := Option.isSome_iff_exists.mp hsome
    have hgd := flatValsFrom_getD r dec utf8Lossy n 0 k i (Nat.zero_le k) (by omega) hge hlti
    have h0 : docStartOf r dec 0 = 0 := rfl
    rw [h0, Nat.sub_zero] at hgd
    rw [VarByteChunkReader.getString, hbytes, exceptBind_ok, hcs]
    dsimp only
    rw [hgd, hcompat _ _ hcs]
  · by_cases hc : r.compressionType = 0
    · rw [if_pos hc]
      omega
    · rw [if_neg hc]


/-- Witness for `C2_var_byte_bulk_equiv`: the §4.6 single-chunk example
(`hi`, `abc`, `xyz`) is well formed with all-ASCII values, the theorem's
conclusion holds for it, and its bulk read evaluates to exactly those three
strings with zero decompressions. -/
theorem C2_var_byte_bulk_equiv_witness :
    WellFormedV4 (fun _ _ => none) sampleV4Reader (fun _ => sampleV4Chunk) 1
    ∧ (∀ k, k < 1 → ∀ i, i < docCountOf sampleV4Reader (fun _ => sampleV4Chunk) k →
        (asciiDecode (docValueOf sampleV4Reader (fun _ => sampleV4Chunk) k i)).isSome = true)
    ∧ (∃ vs cnt,
        readAllStringsChunkedCounted (fun _ _ => none) asciiLossy sampleV4Reader
          = Except.ok (vs, cnt)
        ∧ VarByteChunkReader.readAllStrings (fun _ _ => none) asciiLossy sampleV4Reader
          = Except.ok vs
        ∧ vs.length = sampleV4Reader.totalDocs
        ∧ (∀ i, i < sampleV4Reader.totalDocs →
            VarByteChunkReader.getString (fun _ _ => none) asciiDecode sampleV4Reader i
              = Except.ok (vs.getD i []))
        ∧ cnt ≤ 1)
    ∧ readAllStringsChunkedCounted (fun _ _ => none) asciiLossy sampleV4Reader
        = Except.ok ([['h', 'i'], ['a', 'b', 'c'], ['x', 'y', 'z']], 0) :=
  ⟨by unfold WellFormedV4; decide, by decide,
    C2_var_byte_bulk_equiv (fun _ _ => none) asciiDecode asciiLossy
      sampleV4Reader (fun _ => sampleV4Chunk) 1 (by unfold WellFormedV4; decide)
      asciiDecode_lossy (by decide),
    by decide⟩


end Spec2Proof
